import Mathlib

/-!
# Verification of the single-site crawler (`rawdata/main.py`)

This file gives a shallow embedding of the crawler in `rawdata/main.py`
and settles the specification claims about it.

The embedding models:

* the relevant parts of CPython's `urllib.parse` (`urlsplit`, `urlparse`,
  `urlunsplit`, `urlunparse`, `urljoin`) on strings represented as `List Char`,
  including the `ValueError` raised for bracket-mismatched netlocs
  (modelled with the `PE` error monad);
* the `same_topic` scope filter;
* the `re.findall(r'href=["\'](.*?)["\']', html, flags=re.I)` link scan;
* the `crawl_single_site` loop as a step function on an explicit crawl state,
  with the external fetcher (`crawler.arun`) and the file system's write
  faults supplied by an `Oracle`.
-/

namespace Crawler

/-- Strings of the model: Python `str` as a list of characters. -/
abbrev Str := List Char

/-- Coerce a Lean string literal into the model's string type. -/
def toL (s : String) : Str := s.toList

/-- The single-quote character (written via its code point). -/
def squote : Char := Char.ofNat 39

/-- Does the string contain the character? (Python `ch in s`). -/
def hasChar (ch : Char) (l : Str) : Bool := l.any (fun c => c = ch)

/-- The part of the string before the first occurrence of `ch`
(the whole string if absent): Python `s.split(ch)[0]`. -/
def takeUntil (ch : Char) : Str → Str
  | [] => []
  | c :: cs => if c = ch then [] else c :: takeUntil ch cs

/-- The part of the string after the first occurrence of `ch`, if any:
Python `s.split(ch, 1)[1]`. -/
def afterFirst (ch : Char) : Str → Option Str
  | [] => none
  | c :: cs => if c = ch then some cs else afterFirst ch cs

/-- Python `s.lower()` (all our uses are on ASCII scheme characters). -/
def lowerStr (l : Str) : Str := l.map Char.toLower

/-- Python `b.startswith(a)` is `isStartOf a b`. -/
def isStartOf : Str → Str → Bool
  | [], _ => true
  | _ :: _, [] => false
  | a :: as, b :: bs => a = b && isStartOf as bs

/-- Python `s.rstrip("/")`: remove every trailing slash. -/
def rstripSlash (l : Str) : Str := (l.reverse.dropWhile (fun c => c = '/')).reverse

/-! ## `urllib.parse`: splitting

The embedding follows CPython 3.11's `urllib/parse.py`.  Two checks that
only concern netlocs with bracketed (IPv6/IPvFuture) hosts or non-ASCII
characters, `_check_bracketed_host` and `_checknetloc`, are omitted; the
`ValueError` for a netloc containing `[` without `]` (or vice-versa) is
modelled. -/

/-- Characters removed from URLs by `urlsplit` (`_UNSAFE_URL_BYTES_TO_REMOVE`). -/
def isUnsafeChar (c : Char) : Bool := c = '\t' || c = '\r' || c = '\n'

/-- `urlsplit`'s sanitisation: remove tab, CR and LF everywhere. -/
def removeUnsafe (l : Str) : Str := l.filter (fun c => !isUnsafeChar c)

/-- `_WHATWG_C0_CONTROL_OR_SPACE`: code points up to and including space. -/
def isC0OrSpace (c : Char) : Bool := c.val ≤ 32

/-- Python `s.strip(_WHATWG_C0_CONTROL_OR_SPACE)` (both ends). -/
def stripC0Space (l : Str) : Str :=
  ((l.dropWhile isC0OrSpace).reverse.dropWhile isC0OrSpace).reverse

/-- `scheme_chars` of `urllib.parse`: letters, digits, `+`, `-`, `.`. -/
def isSchemeChar (c : Char) : Bool := c.isAlpha || c.isDigit || c = '+' || c = '-' || c = '.'

/-- Helper for `schemeSplit`: scan scheme characters up to a colon. -/
def schemeGo (acc : Str) : Str → Option (Str × Str)
  | [] => none
  | c :: cs =>
    if c = ':' then some (acc, cs)
    else if isSchemeChar c then schemeGo (acc ++ [c]) cs
    else none

/-- Scheme detection of `urlsplit`: a leading alphabetic character followed by
scheme characters and a colon.  Returns the raw (un-lowered) scheme and the
rest after the colon. -/
def schemeSplit : Str → Option (Str × Str)
  | [] => none
  | c :: cs => if c.isAlpha then schemeGo [c] cs else none

/-- A character ending the netloc in `_splitnetloc`: `/`, `?` or `#`. -/
def isNetlocEnd (c : Char) : Bool := c = '/' || c = '?' || c = '#'

/-- Result of `urlsplit`. -/
structure UrlSplit where
  scheme : Str
  netloc : Str
  path : Str
  query : Str
  fragment : Str
deriving DecidableEq

/-- Error monad for the Python `ValueError`s that `urllib.parse` can raise. -/
inductive PE (α : Type) where
  | ok (val : α)
  | err (msg : Str)
deriving DecidableEq

/-- The message of the `ValueError` raised for bracket-mismatched netlocs. -/
def invalidIPv6 : Str := toL "Invalid IPv6 URL"

/-- Fragment and query extraction of `urlsplit`: split the fragment at the
first `#`, then the query at the first `?`; returns `(path, query,
fragment)`. -/
def splitFragQuery (rest2 : Str) : Str × Str × Str :=
  let (rest3, fragment) :=
    match afterFirst '#' rest2 with
    | some f => (takeUntil '#' rest2, f)
    | none => (rest2, [])
  match afterFirst '?' rest3 with
  | some q => (takeUntil '?' rest3, q, fragment)
  | none => (rest3, [], fragment)

/-- The tail of `urlsplit` once scheme and netloc are separated: the
bracket `ValueError` check, then fragment and query extraction. -/
def urlsplitNetloc (sch netloc rest2 : Str) : PE UrlSplit :=
  if (hasChar '[' netloc) ≠ (hasChar ']' netloc) then .err invalidIPv6
  else
    let (path, query, fragment) := splitFragQuery rest2
    .ok ⟨sch, netloc, path, query, fragment⟩

/-- The tail of `urlsplit` once the scheme is separated: netloc after
`//` up to the first `/`, `?` or `#` (`_splitnetloc`). -/
def urlsplitAfterScheme (sch rest1 : Str) : PE UrlSplit :=
  if rest1.take 2 = toL "//" then
    urlsplitNetloc sch ((rest1.drop 2).takeWhile (fun c => !isNetlocEnd c))
      ((rest1.drop 2).dropWhile (fun c => !isNetlocEnd c))
  else urlsplitNetloc sch [] rest1

/-- CPython's `urlsplit(url, scheme=defScheme, allow_fragments=True)`:
lstrip C0-control/space characters, remove tab/CR/LF, split off the scheme,
the netloc (after `//`), the fragment (first `#`) and then the query (first
`?`).  Raises `ValueError` when the netloc has `[` without `]` or
vice-versa. -/
def urlsplitE (url0 defScheme : Str) : PE UrlSplit :=
  let url1 := removeUnsafe (url0.dropWhile isC0OrSpace)
  let ds := removeUnsafe (stripC0Space defScheme)
  match schemeSplit url1 with
  | some (s, r) => urlsplitAfterScheme (lowerStr s) r
  | none => urlsplitAfterScheme ds url1

/-- Result of `urlparse` (adds the `params` component). -/
structure UrlParse where
  scheme : Str
  netloc : Str
  path : Str
  params : Str
  query : Str
  fragment : Str
deriving DecidableEq

/-- Split a string at its last slash: `lastSlashSplit u = (pre, suf)` with
`u = pre ++ suf`, `suf` slash-free, and `pre` ending in the last slash
(or empty when there is no slash). -/
def lastSlashSplit : Str → Str × Str
  | [] => ([], [])
  | c :: cs =>
    if hasChar '/' cs then
      let (a, b) := lastSlashSplit cs
      (c :: a, b)
    else if c = '/' then (['/'], cs)
    else ([], c :: cs)

/-- CPython's `_splitparams`: split `path;params` at the first `;` occurring
at or after the last `/` (or anywhere when there is no `/`). -/
def splitparamsPy (u : Str) : Str × Str :=
  let (pre, suf) := lastSlashSplit u
  match afterFirst ';' suf with
  | some pr => (pre ++ takeUntil ';' suf, pr)
  | none => (u, [])

/-- `uses_relative` of `urllib.parse` (CPython 3.11). -/
def uses_relative : List Str :=
  [toL "", toL "ftp", toL "http", toL "gopher", toL "nntp", toL "imap",
   toL "wais", toL "file", toL "https", toL "shttp", toL "mms",
   toL "prospero", toL "rtsp", toL "rtsps", toL "rtspu", toL "sftp",
   toL "svn", toL "svn+ssh", toL "ws", toL "wss"]

/-- `uses_netloc` of `urllib.parse` (CPython 3.11). -/
def uses_netloc : List Str :=
  [toL "", toL "ftp", toL "http", toL "gopher", toL "nntp", toL "telnet",
   toL "imap", toL "wais", toL "file", toL "mms", toL "https", toL "shttp",
   toL "snews", toL "prospero", toL "rtsp", toL "rtsps", toL "rtspu",
   toL "rsync", toL "svn", toL "svn+ssh", toL "sftp", toL "nfs",
   toL "git", toL "git+ssh", toL "ws", toL "wss"]

/-- `uses_params` of `urllib.parse` (CPython 3.11). -/
def uses_params : List Str :=
  [toL "", toL "ftp", toL "hdl", toL "prospero", toL "http", toL "imap",
   toL "https", toL "shttp", toL "rtsp", toL "rtsps", toL "rtspu",
   toL "sip", toL "sips", toL "mms", toL "sftp", toL "tel"]

/-- CPython's `urlparse(url, scheme=ds, allow_fragments=True)`:
`urlsplit` plus the params split. -/
def urlparseE (url ds : Str) : PE UrlParse :=
  match urlsplitE url ds with
  | .err e => .err e
  | .ok s =>
    let (p, prm) :=
      if s.scheme ∈ uses_params ∧ hasChar ';' s.path then splitparamsPy s.path
      else (s.path, [])
    .ok ⟨s.scheme, s.netloc, p, prm, s.query, s.fragment⟩

/-! ## `urllib.parse`: unsplitting and joining -/

/-- CPython 3.11's `urlunsplit`. -/
def urlunsplitS (scheme netloc path query fragment : Str) : Str :=
  let u1 :=
    if netloc ≠ [] ∨ (scheme ≠ [] ∧ scheme ∈ uses_netloc ∧ path.take 2 ≠ toL "//") then
      toL "//" ++ netloc ++ (if path ≠ [] ∧ path.take 1 ≠ toL "/" then '/' :: path else path)
    else path
  let u2 := if scheme ≠ [] then scheme ++ [':'] ++ u1 else u1
  let u3 := if query ≠ [] then u2 ++ ['?'] ++ query else u2
  if fragment ≠ [] then u3 ++ ['#'] ++ fragment else u3

/-- CPython's `urlunparse`. -/
def urlunparseS (scheme netloc path params query fragment : Str) : Str :=
  urlunsplitS scheme netloc (if params ≠ [] then path ++ [';'] ++ params else path)
    query fragment

/-- Python `s.split('/')` (never empty, splits on every slash). -/
def splitSlash : Str → List Str
  | [] => [[]]
  | c :: cs =>
    if c = '/' then [] :: splitSlash cs
    else
      match splitSlash cs with
      | [] => [[c]]
      | h :: t => (c :: h) :: t

/-- Python `'/'.join(l)`. -/
def joinSlash : List Str → Str
  | [] => []
  | [x] => x
  | x :: xs => x ++ '/' :: joinSlash xs

/-- Helper for `filterMiddle`: keep the last element, drop empty ones before it. -/
def filterMiddleAux : List Str → List Str
  | [] => []
  | [b] => [b]
  | b :: bs => if b = [] then filterMiddleAux bs else b :: filterMiddleAux bs

/-- `segments[1:-1] = filter(None, segments[1:-1])` of `urljoin`:
drop empty segments, keeping the first and last elements. -/
def filterMiddle : List Str → List Str
  | [] => []
  | [a] => [a]
  | a :: rest => a :: filterMiddleAux rest

/-- The segment-resolution loop of `urljoin`: `..` pops (ignoring underflow),
`.` is dropped, anything else is appended. -/
def resolveSegs (acc : List Str) : List Str → List Str
  | [] => acc
  | s :: ss =>
    if s = toL ".." then resolveSegs acc.dropLast ss
    else if s = toL "." then resolveSegs acc ss
    else resolveSegs (acc ++ [s]) ss

/-- CPython's `urljoin(base, url)` (may raise `ValueError` via `urlparse`). -/
def urljoinE (base url : Str) : PE Str :=
  if base = [] then .ok url
  else if url = [] then .ok base
  else
    match urlparseE base [] with
    | .err e => .err e
    | .ok b =>
      match urlparseE url b.scheme with
      | .err e => .err e
      | .ok u =>
        if u.scheme ≠ b.scheme ∨ ¬ (u.scheme ∈ uses_relative) then .ok url
        else if u.scheme ∈ uses_netloc ∧ u.netloc ≠ [] then
          .ok (urlunparseS u.scheme u.netloc u.path u.params u.query u.fragment)
        else
          let netloc := if u.scheme ∈ uses_netloc then b.netloc else u.netloc
          if u.path = [] ∧ u.params = [] then
            let query := if u.query = [] then b.query else u.query
            .ok (urlunparseS u.scheme netloc b.path b.params query u.fragment)
          else
            let baseParts0 := splitSlash b.path
            let baseParts :=
              if baseParts0.getLastD [] ≠ [] then baseParts0.dropLast else baseParts0
            let segments :=
              if u.path.take 1 = toL "/" then splitSlash u.path
              else filterMiddle (baseParts ++ splitSlash u.path)
            let resolved := resolveSegs [] segments
            let resolved2 :=
              if segments.getLastD [] = toL ".." ∨ segments.getLastD [] = toL "." then
                resolved ++ [[]]
              else resolved
            let joined := joinSlash resolved2
            .ok (urlunparseS u.scheme netloc (if joined = [] then toL "/" else joined)
              u.params u.query u.fragment)

/-! ## Hostname extraction

`ParseResult.hostname` of `urllib.parse`: the part of the netloc after the
last `@`, inside brackets if present, otherwise before the first `:`,
lowercased (an IPv6 zone suffix after `%` is not lowercased).  This is the
"host" of the specification's `SeedContext`. -/

/-- The suffix after the last occurrence of `ch` (the whole string when
absent): Python `s.rpartition(ch)[2]`. -/
def afterLast (ch : Char) : Str → Str
  | [] => []
  | c :: cs =>
    if hasChar ch cs then afterLast ch cs
    else if c = ch then cs
    else c :: cs

/-- Lowercase a hostname, preserving a `%`-zone suffix. -/
def lowerHost (h : Str) : Str :=
  match afterFirst '%' h with
  | some z => lowerStr (takeUntil '%' h) ++ '%' :: z
  | none => lowerStr h

/-- `ParseResult.hostname` (empty string standing for Python's `None`). -/
def hostnameOf (netloc : Str) : Str :=
  let hostinfo := afterLast '@' netloc
  match afterFirst '[' hostinfo with
  | some bracketed => lowerHost (takeUntil ']' bracketed)
  | none => lowerHost (takeUntil ':' hostinfo)

/-! ## The crawler's own helpers (`rawdata/main.py`) -/

/-- `same_topic(base_url, candidate)` of `rawdata/main.py`:
candidate scheme must be http/https, netlocs must be equal, and the
candidate path (trailing slashes stripped) must start with the base path
(trailing slashes stripped). -/
def same_topicE (base_url candidate : Str) : PE Bool :=
  match urlparseE base_url [] with
  | .err e => .err e
  | .ok base =>
    match urlparseE candidate [] with
    | .err e => .err e
    | .ok cand =>
      if ¬ (cand.scheme = toL "http" ∨ cand.scheme = toL "https") then .ok false
      else if cand.netloc ≠ base.netloc then .ok false
      else if ¬ (isStartOf (rstripSlash base.path) (rstripSlash cand.path) = true) then .ok false
      else .ok true

/-- The crawl loop's normalisation of a raw link against a base URL
(lines 78-79 of `rawdata/main.py`):
`urljoin(base, raw.split("#")[0]).split("?")[0]`. -/
def normalizeE (base raw : Str) : PE Str :=
  match urljoinE base (takeUntil '#' raw) with
  | .err e => .err e
  | .ok a => .ok (takeUntil '?' a)

/-! ## Link extraction

`re.findall(r'href=["\'](.*?)["\']', html, flags=re.I)`: scan left to
right; at each position try to match `href=` case-insensitively, then a
quote character, then lazily capture characters (`.` does not match a
newline) up to the next quote character of either kind; on success continue
after the closing quote, otherwise advance one character. -/

/-- A quote character of the regex's `["\']` class. -/
def isQuoteCh (c : Char) : Bool := c = '"' || c = squote

/-- Find the closing quote: returns the captured characters and the rest
after the quote; fails at a newline or the end of the string. -/
def findClose : Str → Option (Str × Str)
  | [] => none
  | c :: cs =>
    if isQuoteCh c then some ([], cs)
    else if c = '\n' then none
    else
      match findClose cs with
      | some (cap, rest) => some (c :: cap, rest)
      | none => none

/-- Case-insensitive prefix test (pattern first). -/
def startsWithCI : Str → Str → Bool
  | [], _ => true
  | _ :: _, [] => false
  | p :: ps, c :: cs => (c.toLower = p.toLower) && startsWithCI ps cs

/-- Try to match the whole regex at the current position. -/
def matchHref (l : Str) : Option (Str × Str) :=
  if startsWithCI (toL "href=") l then
    match l.drop 5 with
    | [] => none
    | q :: cs => if isQuoteCh q then findClose cs else none
  else none

/-- The scan of `re.findall`, fuelled for structural recursion.  A
successful match at a position consumes at least six characters (`href=`,
a quote, the capture and the closing quote), so the argument strictly
shrinks on every recursive call and fuel equal to the string's length is
enough to never cut the scan short. -/
def extractLinksF : Nat → Str → List Str
  | 0, _ => []
  | _, [] => []
  | fuel + 1, c :: cs =>
    match matchHref (c :: cs) with
    | some (cap, rest) => cap :: extractLinksF fuel rest
    | none => extractLinksF fuel cs

/-- `re.findall(r'href=["\'](.*?)["\']', html, flags=re.I)`. -/
def extractLinks (l : Str) : List Str := extractLinksF l.length l

/-! ## The crawl driver (`crawl_single_site`)

External effects are supplied by an `Oracle`:

* `fetch u` is what `await crawler.arun(url=u)` does for `u`: a successful
  `CrawlResult` (giving `result.html`), a failed one (giving
  `result.error_message`), or a raised exception;
* `writeFault u` models the file system during the `open/write` block for
  page `u`: `none` when both writes succeed, `some (n, msg)` when an
  `OSError` with message `msg` is raised after `n` characters of the record
  have been written.

The state carries, besides the crawler's own `seen` and `to_visit`, the
observable history: the bytes of `baka.txt` (`out`), the URLs passed to
`crawler.arun` in order (`fetched`), the successfully recorded pages
(`okPages`) and the printed diagnostics (`diags`). -/

/-- Outcome of `await crawler.arun(url=u)`. -/
inductive FetchOutcome where
  | ok (html : Str)
  | failure (err : Str)
  | exn (msg : Str)
deriving DecidableEq

/-- The crawl's environment: fetcher plus file system. -/
structure Oracle where
  fetch : Str → FetchOutcome
  writeFault : Str → Option (Nat × Str)

/-- A printed diagnostic line. -/
inductive Diag where
  | okd (url : Str) (bytes : Nat)
  | skip (url : Str) (err : Str)
  | error (url : Str) (msg : Str)
deriving DecidableEq

/-- The crawl state. -/
structure CrawlState where
  seen : List Str
  to_visit : List Str
  out : Str
  fetched : List Str
  okPages : List (Str × Str)
  diags : List Diag
deriving DecidableEq

/-- The record written to `baka.txt` for one page:
`f"\n\n<!-- URL: {url} -->\n\n"` followed by the raw HTML. -/
def record (url html : Str) : Str :=
  toL "\n\n<!-- URL: " ++ url ++ toL " -->\n\n" ++ html

/-- Processing of one raw link (lines 77-81 of `rawdata/main.py`):
resolve against the current page's URL, strip fragment and query, and
append to `to_visit` when unseen and on topic.  Exceptions (`ValueError`
from `urlparse`) propagate. -/
def linkStep (start url : Str) (seen tv : List Str) (raw : Str) : PE (List Str) :=
  match urljoinE url (takeUntil '#' raw) with
  | .err e => .err e
  | .ok a0 =>
    let absolute := takeUntil '?' a0
    if absolute ∈ seen then .ok tv
    else
      match same_topicE start absolute with
      | .err e => .err e
      | .ok b => .ok (if b then tv ++ [absolute] else tv)

/-- The `for raw_link in links` loop; stops at the first exception,
returning the frontier built so far and the exception message, if any. -/
def linksLoop (start url : Str) (seen : List Str) :
    List Str → List Str → List Str × Option Str
  | [], tv => (tv, none)
  | raw :: rs, tv =>
    match linkStep start url seen tv raw with
    | .err e => (tv, some e)
    | .ok tv2 => linksLoop start url seen rs tv2

/-- One iteration of the `while to_visit` loop; `none` when the frontier is
empty (the loop exits). -/
def step (o : Oracle) (start : Str) (s : CrawlState) : Option CrawlState :=
  match s.to_visit with
  | [] => none
  | url :: rest =>
    if url ∈ s.seen then some { s with to_visit := rest }
    else
      let s1 := { s with
        to_visit := rest, seen := url :: s.seen, fetched := s.fetched ++ [url] }
      match o.fetch url with
      | .exn msg => some { s1 with diags := s1.diags ++ [Diag.error url msg] }
      | .failure err => some { s1 with diags := s1.diags ++ [Diag.skip url err] }
      | .ok html =>
        let s2 := { s1 with diags := s1.diags ++ [Diag.okd url html.length] }
        match o.writeFault url with
        | some (n, msg) =>
          some { s2 with
            out := s2.out ++ (record url html).take n,
            diags := s2.diags ++ [Diag.error url msg] }
        | none =>
          let s3 := { s2 with
            out := s2.out ++ record url html,
            okPages := s2.okPages ++ [(url, html)] }
          match linksLoop start url s3.seen (extractLinks html) s3.to_visit with
          | (tv, none) => some { s3 with to_visit := tv }
          | (tv, some e) =>
            some { s3 with to_visit := tv, diags := s3.diags ++ [Diag.error url e] }

/-- Iterate `step` at most `fuel` times. -/
def run (o : Oracle) (start : Str) : Nat → CrawlState → CrawlState
  | 0, s => s
  | fuel + 1, s =>
    match step o start s with
    | none => s
    | some s2 => run o start fuel s2

/-- The state at the top of `crawl_single_site`: empty `seen`, the seed as
the only frontier entry, `baka.txt` truncated, nothing fetched yet. -/
def initState (start : Str) : CrawlState := ⟨[], [start], [], [], [], []⟩

/-- `crawl_single_site(start)` run for at most `fuel` iterations. -/
def crawl (o : Oracle) (start : Str) (fuel : Nat) : CrawlState :=
  run o start fuel (initState start)

/-! ## Derived notions used by the theorems -/

/-- The absolute URL a raw link contributes when it passes the topic test
(ignoring the `seen` check). -/
def candFn (start url raw : Str) : Option Str :=
  match urljoinE url (takeUntil '#' raw) with
  | .err _ => none
  | .ok a0 =>
    let absolute := takeUntil '?' a0
    match same_topicE start absolute with
    | .ok true => some absolute
    | _ => none

/-- All on-topic absolute URLs of a list of raw links, in order. -/
def candidates (start url : Str) (links : List Str) : List Str :=
  links.filterMap (candFn start url)

/-- The on-topic successors of a URL under an oracle: the on-topic
absolute links of its page when the fetch succeeds. -/
def succs (o : Oracle) (start u : Str) : List Str :=
  match o.fetch u with
  | .ok html => candidates start u (extractLinks html)
  | _ => []

/-- Flatten recorded pages into the bytes of `baka.txt`. -/
def flatRecords (l : List (Str × Str)) : Str :=
  (l.map (fun p => record p.1 p.2)).flatten

/-- The record the output should contain for a fetched URL, when its
fetch succeeded. -/
def fetchPair (o : Oracle) (u : Str) : Option (Str × Str) :=
  match o.fetch u with
  | .ok html => some (u, html)
  | _ => none

/-- Number of universe URLs not yet seen. -/
def countNew (U seen : List Str) : Nat :=
  (U.filter (fun v => decide (v ∉ seen))).length

/-- Termination measure: unseen universe URLs weighted by the fan-out
bound, plus the pending frontier length. -/
def crawlMeasure (U : List Str) (B : Nat) (s : CrawlState) : Nat :=
  (B + 1) * countNew U s.seen + s.to_visit.length

/-- Largest per-page fan-out over the universe. -/
def maxFanout (o : Oracle) (start : Str) (U : List Str) : Nat :=
  (U.map (fun u => (succs o start u).length)).foldr max 0

/-! ## Characterisation of one loop iteration -/

theorem step_seen (o : Oracle) (start : Str) (s : CrawlState) (u : Str) (rest : List Str)
    (htv : s.to_visit = u :: rest) (hseen : u ∈ s.seen) :
    step o start s = some { s with to_visit := rest } := by
  unfold step
  rw [htv]
  simp [hseen]

theorem linkStep_cases (start url : Str) (seen tv : List Str) (raw : Str) :
    (∃ e, linkStep start url seen tv raw = .err e) ∨
    linkStep start url seen tv raw = .ok tv ∨
    (∃ a, linkStep start url seen tv raw = .ok (tv ++ [a]) ∧
      candFn start url raw = some a ∧ a ∉ seen ∧ same_topicE start a = .ok true) := by
  cases hj : urljoinE url (takeUntil '#' raw) with
  | err e => exact .inl ⟨e, by simp [linkStep, hj]⟩
  | ok a0 =>
    by_cases hm : takeUntil '?' a0 ∈ seen
    · exact .inr (.inl (by simp [linkStep, hj, hm]))
    · cases hst : same_topicE start (takeUntil '?' a0) with
      | err e => exact .inl ⟨e, by simp [linkStep, hj, hm, hst]⟩
      | ok b =>
        cases b with
        | false => exact .inr (.inl (by simp [linkStep, hj, hm, hst]))
        | true =>
          exact .inr (.inr ⟨takeUntil '?' a0, by simp [linkStep, hj, hm, hst],
            by simp [candFn, hj, hst], hm, hst⟩)

theorem linksLoop_spec (start url : Str) (seen : List Str) (links : List Str) :
    ∀ tv : List Str,
      ∃ app e?, linksLoop start url seen links tv = (tv ++ app, e?) ∧
        app.Sublist (candidates start url links) ∧
        ∀ v ∈ app, v ∉ seen ∧ same_topicE start v = .ok true := by
  induction links with
  | nil =>
    intro tv
    exact ⟨[], none, by simp [linksLoop], by simp [candidates], by simp⟩
  | cons raw rs ih =>
    intro tv
    have hcand : candidates start url (raw :: rs) =
        match candFn start url raw with
        | some a => a :: candidates start url rs
        | none => candidates start url rs := by
      simp [candidates, List.filterMap_cons]
      cases candFn start url raw <;> simp
    rcases linkStep_cases start url seen tv raw with ⟨e, he⟩ | he | ⟨a, he, hc, hns, hst⟩
    · exact ⟨[], some e, by simp [linksLoop, he], by simp, by simp⟩
    · rcases ih tv with ⟨app, e?, hl, hs, hv⟩
      refine ⟨app, e?, by simp [linksLoop, he, hl], ?_, hv⟩
      rw [hcand]
      cases candFn start url raw with
      | some b => exact hs.cons b
      | none => exact hs
    · rcases ih (tv ++ [a]) with ⟨app, e?, hl, hs, hv⟩
      refine ⟨a :: app, e?, ?_, ?_, ?_⟩
      · simp [linksLoop, he, hl]
      · rw [hcand, hc]
        exact hs.cons₂ a
      · intro v hv2
        rcases List.mem_cons.mp hv2 with rfl | hva
        · exact ⟨hns, hst⟩
        · exact hv v hva

theorem step_full (o : Oracle) (start : Str) (s : CrawlState) (u : Str) (rest : List Str)
    (htv : s.to_visit = u :: rest) (hseen : u ∉ s.seen) :
    (∃ msg, o.fetch u = .exn msg ∧
      step o start s = some { s with
        to_visit := rest, seen := u :: s.seen,
        fetched := s.fetched ++ [u], diags := s.diags ++ [Diag.error u msg] }) ∨
    (∃ err, o.fetch u = .failure err ∧
      step o start s = some { s with
        to_visit := rest, seen := u :: s.seen,
        fetched := s.fetched ++ [u], diags := s.diags ++ [Diag.skip u err] }) ∨
    (∃ html n msg, o.fetch u = .ok html ∧ o.writeFault u = some (n, msg) ∧
      step o start s = some { s with
        to_visit := rest, seen := u :: s.seen,
        fetched := s.fetched ++ [u], out := s.out ++ (record u html).take n,
        diags := s.diags ++ [Diag.okd u html.length, Diag.error u msg] }) ∨
    (∃ html app, o.fetch u = .ok html ∧ o.writeFault u = none ∧
      app.Sublist (candidates start u (extractLinks html)) ∧
      (∀ v ∈ app, v ∉ (u :: s.seen) ∧ same_topicE start v = .ok true) ∧
      linksLoop start u (u :: s.seen) (extractLinks html) rest = (rest ++ app, none) ∧
      step o start s = some { s with
        to_visit := rest ++ app, seen := u :: s.seen,
        fetched := s.fetched ++ [u], out := s.out ++ record u html,
        okPages := s.okPages ++ [(u, html)],
        diags := s.diags ++ [Diag.okd u html.length] }) ∨
    (∃ html app e, o.fetch u = .ok html ∧ o.writeFault u = none ∧
      app.Sublist (candidates start u (extractLinks html)) ∧
      (∀ v ∈ app, v ∉ (u :: s.seen) ∧ same_topicE start v = .ok true) ∧
      linksLoop start u (u :: s.seen) (extractLinks html) rest = (rest ++ app, some e) ∧
      step o start s = some { s with
        to_visit := rest ++ app, seen := u :: s.seen,
        fetched := s.fetched ++ [u], out := s.out ++ record u html,
        okPages := s.okPages ++ [(u, html)],
        diags := s.diags ++ [Diag.okd u html.length, Diag.error u e] }) := by
  unfold step
  rw [htv]
  simp only [if_neg hseen]
  cases hf : o.fetch u with
  | exn msg => exact .inl ⟨msg, rfl, rfl⟩
  | failure err => exact .inr (.inl ⟨err, rfl, rfl⟩)
  | ok html =>
    cases hw : o.writeFault u with
    | some p =>
      refine .inr (.inr (.inl ⟨html, p.1, p.2, rfl, by simp, ?_⟩))
      simp [List.append_assoc]
    | none =>
      rcases linksLoop_spec start u (u :: s.seen) (extractLinks html) rest with
        ⟨app, e?, hl, hsub, hmem⟩
      cases e? with
      | none =>
        refine .inr (.inr (.inr (.inl ⟨html, app, rfl, rfl, hsub, hmem, hl, ?_⟩)))
        simp only [hl]
      | some e =>
        refine .inr (.inr (.inr (.inr ⟨html, app, e, rfl, rfl, hsub, hmem, hl, ?_⟩)))
        simp only [hl]
        simp [List.append_assoc]

theorem step_none_iff (o : Oracle) (start : Str) (s : CrawlState) :
    step o start s = none ↔ s.to_visit = [] := by
  constructor
  · intro h
    cases htv : s.to_visit with
    | nil => rfl
    | cons u rest =>
      exfalso
      by_cases hseen : u ∈ s.seen
      · rw [step_seen o start s u rest htv hseen] at h
        exact Option.noConfusion h
      · rcases step_full o start s u rest htv hseen with
          ⟨_, _, hs⟩ | ⟨_, _, hs⟩ | ⟨_, _, _, _, _, hs⟩ |
          ⟨_, _, _, _, _, _, _, hs⟩ | ⟨_, _, _, _, _, _, _, _, hs⟩ <;>
        · rw [hs] at h
          exact Option.noConfusion h
  · intro h
    unfold step
    rw [h]

/-- Generic invariant-preservation combinator for `run`. -/
theorem run_inv (o : Oracle) (start : Str) (Inv : CrawlState → Prop)
    (hstep : ∀ s s2, Inv s → step o start s = some s2 → Inv s2) :
    ∀ (fuel : Nat) (s : CrawlState), Inv s → Inv (run o start fuel s) := by
  intro fuel
  induction fuel with
  | zero => intro s h; exact h
  | succ n ih =>
    intro s h
    unfold run
    cases hs : step o start s with
    | none => exact h
    | some s2 => exact ih s2 (hstep s s2 h hs)

/-- Distilled unseen-URL step: the dequeued URL enters `seen` and the fetch
log; the frontier loses its head and gains only links that passed the
membership and topic tests. -/
theorem step_unseen_core (o : Oracle) (start : Str) (s : CrawlState) (u : Str)
    (rest : List Str) (htv : s.to_visit = u :: rest) (hseen : u ∉ s.seen) :
    ∃ s2 app, step o start s = some s2 ∧ s2.seen = u :: s.seen ∧
      s2.fetched = s.fetched ++ [u] ∧ s2.to_visit = rest ++ app ∧
      app.Sublist (succs o start u) ∧
      ∀ v ∈ app, v ∉ (u :: s.seen) ∧ same_topicE start v = .ok true := by
  rcases step_full o start s u rest htv hseen with
      ⟨msg, hf, hs⟩ | ⟨err, hf, hs⟩ | ⟨html, n, msg, hf, hw, hs⟩ |
      ⟨html, app, hf, hw, hsub, hmem, hl, hs⟩ | ⟨html, app, e, hf, hw, hsub, hmem, hl, hs⟩
  · exact ⟨_, [], hs, rfl, rfl, by simp, List.nil_sublist _, by simp⟩
  · exact ⟨_, [], hs, rfl, rfl, by simp, List.nil_sublist _, by simp⟩
  · exact ⟨_, [], hs, rfl, rfl, by simp, List.nil_sublist _, by simp⟩
  · exact ⟨_, app, hs, rfl, rfl, rfl, by rw [succs, hf]; exact hsub, hmem⟩
  · exact ⟨_, app, hs, rfl, rfl, rfl, by rw [succs, hf]; exact hsub, hmem⟩

/-! ## Claim C1 -/

set_option maxRecDepth 100000 in
/-- C1 counterexample.  The claim reads "for every URL (after
normalization), the crawl driver passes that URL to the Page Fetcher at
most once".  The seed is enqueued and fetched as entered, without
normalization: with seed `http://h/a?x=1`, whose page links to `/a`, the
fetcher receives the two distinct strings `http://h/a?x=1` and
`http://h/a`, which denote the same URL after normalization. -/
theorem c1_counterexample :
    (crawl ⟨fun _ => .ok (toL "href=\"/a\""), fun _ => none⟩
        (toL "http://h/a?x=1") 3).fetched =
      [toL "http://h/a?x=1", toL "http://h/a"] ∧
    toL "http://h/a?x=1" ≠ toL "http://h/a" ∧
    normalizeE (toL "http://h/a?x=1") (toL "http://h/a?x=1") = .ok (toL "http://h/a") ∧
    normalizeE (toL "http://h/a?x=1") (toL "http://h/a") = .ok (toL "http://h/a") := by
  decide

/-- C1 (amended): the crawl driver passes each URL string to the Page
Fetcher (`crawler.arun`) at most once — the list of fetched URLs of any
crawl has no duplicates.  (Identification of URLs *modulo normalization*
can only fail through the seed, which is enqueued un-normalized, as the
counterexample shows.) -/
theorem crawl_fetched_nodup (o : Oracle) (start : Str) (fuel : Nat) :
    (crawl o start fuel).fetched.Nodup := by
  have key := run_inv o start
    (fun s => s.fetched.Nodup ∧ ∀ v ∈ s.fetched, v ∈ s.seen) ?_ fuel (initState start) ?_
  · exact key.1
  · intro s s2 hInv hstep
    obtain ⟨hnd, hsub⟩ := hInv
    cases htv : s.to_visit with
    | nil =>
      rw [(step_none_iff o start s).mpr htv] at hstep
      exact Option.noConfusion hstep
    | cons u rest =>
      by_cases hseen : u ∈ s.seen
      · rw [step_seen o start s u rest htv hseen] at hstep
        injection hstep with h2
        subst h2
        exact ⟨hnd, hsub⟩
      · rcases step_unseen_core o start s u rest htv hseen with
          ⟨s2', app, hs, hseen2, hf, _, _, _⟩
        rw [hs] at hstep
        injection hstep with h2
        subst h2
        constructor
        · rw [hf]
          have hu : u ∉ s.fetched := fun hm => hseen (hsub u hm)
          simp [List.nodup_append, hnd, hu]
        · intro v hv
          rw [hf] at hv
          rw [hseen2]
          rcases List.mem_append.mp hv with hv1 | hv1
          · exact List.mem_cons_of_mem u (hsub v hv1)
          · simp at hv1
            rw [hv1]
            exact List.mem_cons_self u s.seen
  · exact ⟨List.nodup_nil, by simp [initState]⟩

/-! ## Claim C2 -/

set_option maxRecDepth 100000 in
/-- C2 counterexample.  The claim says every URL ever added to the
frontier — including the initial seed entry — satisfies
`inScope(seed, url)`, and that no out-of-scope URL is ever fetched.  The
driver enqueues the seed unconditionally (`to_visit = [start_url]`):
with seed `ftp://h/a`, the seed is out of scope by the filter's own
verdict, yet it is the first frontier entry and is passed to the
fetcher. -/
theorem c2_counterexample :
    (crawl ⟨fun _ => .failure [], fun _ => none⟩ (toL "ftp://h/a") 2).fetched =
      [toL "ftp://h/a"] ∧
    same_topicE (toL "ftp://h/a") (toL "ftp://h/a") = .ok false := by
  decide

/-- C2 (amended): whenever the seed itself is in scope
(`same_topic(seed, seed)` is true — so for any well-formed http(s) seed),
every URL ever present in the frontier and every URL passed to the Page
Fetcher satisfies the scope filter with the seed as reference. -/
theorem crawl_scope_closure (o : Oracle) (start : Str) (fuel : Nat)
    (hstart : same_topicE start start = .ok true) :
    (∀ v ∈ (crawl o start fuel).to_visit, same_topicE start v = .ok true) ∧
    (∀ v ∈ (crawl o start fuel).fetched, same_topicE start v = .ok true) := by
  have key := run_inv o start
    (fun s => (∀ v ∈ s.to_visit, same_topicE start v = .ok true) ∧
      (∀ v ∈ s.fetched, same_topicE start v = .ok true)) ?_ fuel (initState start) ?_
  · exact key
  · intro s s2 hInv hstep
    obtain ⟨htvI, hfI⟩ := hInv
    cases htv : s.to_visit with
    | nil =>
      rw [(step_none_iff o start s).mpr htv] at hstep
      exact Option.noConfusion hstep
    | cons u rest =>
      by_cases hseen : u ∈ s.seen
      · rw [step_seen o start s u rest htv hseen] at hstep
        injection hstep with h2
        subst h2
        refine ⟨?_, hfI⟩
        intro v hv
        exact htvI v (by rw [htv]; exact List.mem_cons_of_mem u hv)
      · rcases step_unseen_core o start s u rest htv hseen with
          ⟨s2', app, hs, _, hf, htv2, _, hmem⟩
        rw [hs] at hstep
        injection hstep with h2
        subst h2
        constructor
        · intro v hv
          rw [htv2] at hv
          rcases List.mem_append.mp hv with hv1 | hv1
          · exact htvI v (by rw [htv]; exact List.mem_cons_of_mem u hv1)
          · exact (hmem v hv1).2
        · intro v hv
          rw [hf] at hv
          rcases List.mem_append.mp hv with hv1 | hv1
          · exact hfI v hv1
          · simp at hv1
            rw [hv1]
            exact htvI u (by rw [htv]; exact List.mem_cons_self u rest)
  · constructor
    · intro v hv
      simp [initState] at hv
      subst hv
      exact hstart
    · intro v hv
      simp [initState] at hv

/-- Witness for `crawl_scope_closure` at a concrete in-scope seed. -/
theorem crawl_scope_closure_witness :
    same_topicE (toL "http://h/") (toL "http://h/") = .ok true ∧
    (∀ v ∈ (crawl ⟨fun _ => .failure [], fun _ => none⟩ (toL "http://h/") 2).fetched,
      same_topicE (toL "http://h/") v = .ok true) :=
  ⟨by decide, (crawl_scope_closure ⟨fun _ => .failure [], fun _ => none⟩
    (toL "http://h/") 2 (by decide)).2⟩

/-! ## Claim C3 -/

set_option maxRecDepth 100000 in
/-- C3 counterexample.  The claim says a URL is added to the VisitedSet at
the moment it is enqueued, and that the frontier never holds two pending
entries for the same URL.  In the code, `seen.add(url)` happens when a URL
is *dequeued* (line 60), not when it is enqueued (line 81): a page whose
markup contains the same link twice enqueues it twice, and the enqueued
URL is not in `seen`. -/
theorem c3_counterexample :
    (crawl ⟨fun _ => .ok (toL "href=\"/b\" href=\"/b\""), fun _ => none⟩
        (toL "http://h/") 1).to_visit =
      [toL "http://h/b", toL "http://h/b"] ∧
    toL "http://h/b" ∉
      (crawl ⟨fun _ => .ok (toL "href=\"/b\" href=\"/b\""), fun _ => none⟩
        (toL "http://h/") 1).seen := by
  decide

/-- C3 (amended): the VisitedSet is updated at dequeue time, not at enqueue
time.  When the head of the frontier is already in the VisitedSet it is
dropped without fetching; when it is not, it enters the VisitedSet before
being fetched, and every link enqueued during the iteration was absent
from the VisitedSet as updated — so the frontier may hold duplicate
pending entries, but each URL is still processed at most once. -/
theorem visited_at_dequeue (o : Oracle) (start : Str) (s : CrawlState) (u : Str)
    (rest : List Str) (htv : s.to_visit = u :: rest) :
    (u ∈ s.seen → step o start s = some { s with to_visit := rest }) ∧
    (u ∉ s.seen → ∃ s2 app, step o start s = some s2 ∧ s2.seen = u :: s.seen ∧
      s2.to_visit = rest ++ app ∧ ∀ v ∈ app, v ∉ s2.seen) := by
  constructor
  · intro hseen
    exact step_seen o start s u rest htv hseen
  · intro hseen
    rcases step_unseen_core o start s u rest htv hseen with
      ⟨s2, app, hs, hseen2, _, htv2, _, hmem⟩
    refine ⟨s2, app, hs, hseen2, htv2, ?_⟩
    intro v hv
    rw [hseen2]
    exact (hmem v hv).1

/-- Witness for `visited_at_dequeue` at the initial state of a crawl. -/
theorem visited_at_dequeue_witness :
    (initState (toL "http://h/")).to_visit = [toL "http://h/"] ∧
    ((toL "http://h/") ∈ (initState (toL "http://h/")).seen →
      step ⟨fun _ => .failure [], fun _ => none⟩ (toL "http://h/")
        (initState (toL "http://h/")) =
        some { initState (toL "http://h/") with to_visit := [] }) ∧
    ((toL "http://h/") ∉ (initState (toL "http://h/")).seen →
      ∃ s2 app, step ⟨fun _ => .failure [], fun _ => none⟩ (toL "http://h/")
        (initState (toL "http://h/")) = some s2 ∧
        s2.seen = (toL "http://h/") :: (initState (toL "http://h/")).seen ∧
        s2.to_visit = [] ++ app ∧ ∀ v ∈ app, v ∉ s2.seen) := by
  refine ⟨rfl, ?_⟩
  exact visited_at_dequeue ⟨fun _ => .failure [], fun _ => none⟩ (toL "http://h/")
    (initState (toL "http://h/")) (toL "http://h/") [] rfl

/-! ## Claim C4: termination -/

theorem le_maxFanout (o : Oracle) (start : Str) (U : List Str) (u : Str)
    (hu : u ∈ U) : (succs o start u).length ≤ maxFanout o start U := by
  induction U with
  | nil => cases hu
  | cons a U' ih =>
    rcases List.mem_cons.mp hu with rfl | hu2
    · exact Nat.le_max_left _ _
    · exact le_trans (ih hu2) (Nat.le_max_right _ _)

theorem countNew_eq_of_not_mem (U : List Str) (u : Str) (seen : List Str)
    (hu : u ∉ U) : countNew U (u :: seen) = countNew U seen := by
  unfold countNew
  congr 1
  apply List.filter_congr
  intro v hv
  have hvu : v ≠ u := fun h => hu (h ▸ hv)
  simp [List.mem_cons, hvu]

theorem countNew_cons (U : List Str) (u : Str) (seen : List Str)
    (hU : U.Nodup) (huU : u ∈ U) (hus : u ∉ seen) :
    countNew U (u :: seen) + 1 = countNew U seen := by
  induction U with
  | nil => cases huU
  | cons a U' ih =>
    have hU' : U'.Nodup := (List.nodup_cons.mp hU).2
    have haU' : a ∉ U' := (List.nodup_cons.mp hU).1
    rcases List.mem_cons.mp huU with rfl | hu2
    · unfold countNew
      have h1 : (decide (u ∉ u :: seen)) = false := by simp
      have h2 : (decide (u ∉ seen)) = true := by simp [hus]
      have hskip := countNew_eq_of_not_mem U' u seen haU'
      unfold countNew at hskip
      simp only [List.filter_cons, h1, h2]
      simp at hskip ⊢
      omega
    · have hau : a ≠ u := fun h => haU' (h ▸ hu2)
      unfold countNew
      simp only [List.filter_cons]
      have h3 : (decide (a ∉ u :: seen)) = (decide (a ∉ seen)) := by
        simp [List.mem_cons, hau]
      rw [h3]
      have hrec := ih hU' hu2
      unfold countNew at hrec
      cases hd : decide (a ∉ seen) <;> simp [hd] at hrec ⊢ <;> omega

theorem run_reaches_done (o : Oracle) (start : Str) (U : List Str)
    (hU : U.Nodup)
    (hclosed : ∀ u ∈ U, ∀ v ∈ succs o start u, v ∈ U) :
    ∀ (fuel : Nat) (s : CrawlState), (∀ v ∈ s.to_visit, v ∈ U) →
      crawlMeasure U (maxFanout o start U) s ≤ fuel →
      (run o start fuel s).to_visit = [] := by
  intro fuel
  induction fuel with
  | zero =>
    intro s hsub hm
    unfold crawlMeasure at hm
    have : s.to_visit.length = 0 := by omega
    simp only [run]
    exact List.length_eq_zero.mp this
  | succ n ih =>
    intro s hsub hm
    cases htv : s.to_visit with
    | nil =>
      unfold run
      rw [(step_none_iff o start s).mpr htv]
      exact htv
    | cons u rest =>
      have hlen : s.to_visit.length = rest.length + 1 := by rw [htv]; rfl
      unfold run
      by_cases hseen : u ∈ s.seen
      · rw [step_seen o start s u rest htv hseen]
        apply ih
        · intro v hv
          exact hsub v (by rw [htv]; exact List.mem_cons_of_mem u hv)
        · unfold crawlMeasure at hm ⊢
          simp only at hm ⊢
          omega
      · rcases step_unseen_core o start s u rest htv hseen with
          ⟨s2, app, hs, hseen2, _, htv2, happ, _⟩
        rw [hs]
        have huU : u ∈ U := hsub u (by rw [htv]; exact List.mem_cons_self u rest)
        have happlen : app.length ≤ maxFanout o start U :=
          le_trans happ.length_le (le_maxFanout o start U u huU)
        apply ih
        · intro v hv
          rw [htv2] at hv
          rcases List.mem_append.mp hv with hv1 | hv1
          · exact hsub v (by rw [htv]; exact List.mem_cons_of_mem u hv1)
          · exact hclosed u huU v (happ.subset hv1)
        · unfold crawlMeasure at hm ⊢
          rw [hseen2, htv2]
          have hcn := countNew_cons U u s.seen hU huU hseen
          set B := maxFanout o start U with hB
          set c2 := countNew U (u :: s.seen) with hc2
          rw [← hcn] at hm
          have hmul : (B + 1) * (c2 + 1) = (B + 1) * c2 + (B + 1) := by ring
          rw [List.length_append]
          omega

/-- C4: for every finite link graph — a duplicate-free universe `U` of
URLs containing the seed and closed under the on-topic links of fetched
pages — the crawl empties its frontier (reaches `Done`) within an
explicitly computable number of loop iterations. -/
theorem crawl_terminates (o : Oracle) (start : Str) (U : List Str)
    (hU : U.Nodup) (hstart : start ∈ U)
    (hclosed : ∀ u ∈ U, ∀ v ∈ succs o start u, v ∈ U) :
    (crawl o start ((maxFanout o start U + 1) * U.length + 1)).to_visit = [] := by
  apply run_reaches_done o start U hU hclosed
  · intro v hv
    simp [initState] at hv
    rw [hv]
    exact hstart
  · unfold crawlMeasure countNew initState
    simp only [List.length_cons, List.length_nil]
    have : (U.filter (fun v => decide (v ∉ ([] : List Str)))).length ≤ U.length :=
      List.length_filter_le _ _
    have hmul : (maxFanout o start U + 1) *
        (U.filter (fun v => decide (v ∉ ([] : List Str)))).length ≤
        (maxFanout o start U + 1) * U.length :=
      Nat.mul_le_mul_left _ this
    omega

/-- Witness for `crawl_terminates` on a one-URL graph. -/
theorem crawl_terminates_witness :
    ([toL "http://h/"] : List Str).Nodup ∧
    toL "http://h/" ∈ [toL "http://h/"] ∧
    (∀ u ∈ [toL "http://h/"],
      ∀ v ∈ succs ⟨fun _ => .failure [], fun _ => none⟩ (toL "http://h/") u,
        v ∈ [toL "http://h/"]) ∧
    (crawl ⟨fun _ => .failure [], fun _ => none⟩ (toL "http://h/")
      ((maxFanout ⟨fun _ => .failure [], fun _ => none⟩ (toL "http://h/")
          [toL "http://h/"] + 1) * 1 + 1)).to_visit = [] :=
  ⟨by decide, by decide, by decide,
    crawl_terminates ⟨fun _ => .failure [], fun _ => none⟩ (toL "http://h/")
      [toL "http://h/"] (by decide) (by decide) (by decide)⟩

/-! ## Claim C5: output completeness and format -/

/-- C5: with a fault-free file system (the source's unguarded writes
succeeding), the bytes of `baka.txt` are exactly the concatenation, in
fetch order, of one record per successfully fetched URL, each record being
`"\n\n<!-- URL: {url} -->\n\n"` followed by the raw page content; and the
output starts truncated (empty) before any fetch. -/
theorem output_format (o : Oracle) (start : Str) (fuel : Nat)
    (hw : ∀ u, o.writeFault u = none) :
    (crawl o start fuel).out = flatRecords (crawl o start fuel).okPages ∧
    (crawl o start fuel).okPages =
      (crawl o start fuel).fetched.filterMap (fetchPair o) ∧
    (initState start).out = [] := by
  have key := run_inv o start
    (fun s => s.out = flatRecords s.okPages ∧
      s.okPages = s.fetched.filterMap (fetchPair o)) ?_ fuel (initState start) ?_
  · exact ⟨key.1, key.2, rfl⟩
  · intro s s2 hInv hstep
    obtain ⟨hout, hok⟩ := hInv
    cases htv : s.to_visit with
    | nil =>
      rw [(step_none_iff o start s).mpr htv] at hstep
      exact Option.noConfusion hstep
    | cons u rest =>
      by_cases hseen : u ∈ s.seen
      · rw [step_seen o start s u rest htv hseen] at hstep
        injection hstep with h2
        subst h2
        exact ⟨hout, hok⟩
      · rcases step_full o start s u rest htv hseen with
          ⟨msg, hf, hs⟩ | ⟨err, hf, hs⟩ | ⟨html, n, msg, hf, hwr, hs⟩ |
          ⟨html, app, hf, hwr, _, _, _, hs⟩ | ⟨html, app, e, hf, hwr, _, _, _, hs⟩
        · rw [hs] at hstep
          injection hstep with h2
          subst h2
          refine ⟨hout, ?_⟩
          rw [List.filterMap_append, ← hok]
          simp [fetchPair, hf]
        · rw [hs] at hstep
          injection hstep with h2
          subst h2
          refine ⟨hout, ?_⟩
          rw [List.filterMap_append, ← hok]
          simp [fetchPair, hf]
        · rw [hw u] at hwr
          exact Option.noConfusion hwr
        · rw [hs] at hstep
          injection hstep with h2
          subst h2
          constructor
          · show s.out ++ record u html = flatRecords (s.okPages ++ [(u, html)])
            rw [hout]
            simp [flatRecords]
          · show s.okPages ++ [(u, html)] =
              (s.fetched ++ [u]).filterMap (fetchPair o)
            rw [List.filterMap_append, ← hok]
            simp [fetchPair, hf]
        · rw [hs] at hstep
          injection hstep with h2
          subst h2
          constructor
          · show s.out ++ record u html = flatRecords (s.okPages ++ [(u, html)])
            rw [hout]
            simp [flatRecords]
          · show s.okPages ++ [(u, html)] =
              (s.fetched ++ [u]).filterMap (fetchPair o)
            rw [List.filterMap_append, ← hok]
            simp [fetchPair, hf]
  · exact ⟨rfl, rfl⟩

set_option maxRecDepth 100000 in
/-- Witness for `output_format` on a concrete two-page crawl. -/
theorem output_format_witness :
    (∀ u, (Oracle.mk (fun _ => .ok (toL "href=\"/b\"")) (fun _ => none)).writeFault u = none) ∧
    ((crawl ⟨fun _ => .ok (toL "href=\"/b\""), fun _ => none⟩ (toL "http://h/") 3).out =
      flatRecords (crawl ⟨fun _ => .ok (toL "href=\"/b\""), fun _ => none⟩
        (toL "http://h/") 3).okPages) :=
  ⟨fun _ => rfl,
    (output_format ⟨fun _ => .ok (toL "href=\"/b\""), fun _ => none⟩
      (toL "http://h/") 3 (fun _ => rfl)).1⟩

/-! ## Claim C6: fetch-failure handling -/

/-- C6: when the fetcher reports failure for a dequeued unseen URL, the
driver emits exactly one `[SKIP]` diagnostic holding the URL and error,
writes nothing, enqueues nothing, marks the URL seen and continues; and
the loop ends only by frontier exhaustion. -/
theorem fetch_failure_handling (o : Oracle) (start : Str) (s : CrawlState)
    (u : Str) (rest : List Str) (err : Str)
    (htv : s.to_visit = u :: rest) (hseen : u ∉ s.seen)
    (hf : o.fetch u = .failure err) :
    step o start s = some { s with
      to_visit := rest, seen := u :: s.seen,
      fetched := s.fetched ++ [u], diags := s.diags ++ [Diag.skip u err] } ∧
    (∀ s3 : CrawlState, step o start s3 = none ↔ s3.to_visit = []) := by
  constructor
  · rcases step_full o start s u rest htv hseen with
      ⟨msg, hf2, hs⟩ | ⟨err2, hf2, hs⟩ | ⟨html, n, msg, hf2, _, _⟩ |
      ⟨html, app, hf2, _, _, _, _, hs⟩ | ⟨html, app, e, hf2, _, _, _, _, hs⟩
    · rw [hf] at hf2
      exact FetchOutcome.noConfusion hf2
    · rw [hf] at hf2
      injection hf2 with h
      subst h
      exact hs
    · rw [hf] at hf2
      exact FetchOutcome.noConfusion hf2
    · rw [hf] at hf2
      exact FetchOutcome.noConfusion hf2
    · rw [hf] at hf2
      exact FetchOutcome.noConfusion hf2
  · exact step_none_iff o start

/-- Witness for `fetch_failure_handling` at the initial state. -/
theorem fetch_failure_handling_witness :
    (initState (toL "http://h/")).to_visit = [toL "http://h/"] ∧
    (toL "http://h/") ∉ (initState (toL "http://h/")).seen ∧
    (Oracle.mk (fun _ => .failure (toL "boom")) (fun _ => none)).fetch (toL "http://h/") =
      .failure (toL "boom") ∧
    step ⟨fun _ => .failure (toL "boom"), fun _ => none⟩ (toL "http://h/")
      (initState (toL "http://h/")) = some { initState (toL "http://h/") with
        to_visit := [], seen := [toL "http://h/"] ++ (initState (toL "http://h/")).seen,
        fetched := (initState (toL "http://h/")).fetched ++ [toL "http://h/"],
        diags := (initState (toL "http://h/")).diags ++
          [Diag.skip (toL "http://h/") (toL "boom")] } := by
  refine ⟨rfl, by simp [initState], rfl, ?_⟩
  exact (fetch_failure_handling ⟨fun _ => .failure (toL "boom"), fun _ => none⟩
    (toL "http://h/") (initState (toL "http://h/")) (toL "http://h/") [] (toL "boom")
    rfl (by simp [initState]) rfl).1

/-! ## Claim C7: two distinct reference URLs -/

/-- C7: the per-link body of the loop resolves every raw link against the
*current page's URL* (`normalizeE url raw`, stripping fragment then query)
while the enqueue decision applies the Scope Filter with the *seed* as
reference (`same_topicE start`): the two reference URLs appear in exactly
these positions and are never conflated. -/
theorem link_two_references (start url : Str) (seen tv : List Str) (raw : Str) :
    linkStep start url seen tv raw =
      match normalizeE url raw with
      | .err e => .err e
      | .ok absolute =>
        if absolute ∈ seen then .ok tv
        else
          match same_topicE start absolute with
          | .err e => .err e
          | .ok b => .ok (if b then tv ++ [absolute] else tv) := by
  unfold linkStep normalizeE
  cases urljoinE url (takeUntil '#' raw) <;> rfl

/-! ## Claim C10: per-page exception handling -/

/-- C10: no modelled exception in the loop body aborts the crawl.  For a
dequeued unseen URL the step always produces a successor state; when the
fetch raises, the state is exactly as at the raise (URL seen, one
`[ERROR]` diagnostic, nothing written, nothing enqueued); when the output
write raises after `n` characters, those characters remain in the output
and no links are processed; when link processing raises, the links
enqueued before the raise and the already-written record remain, and the
loop continues. -/
theorem per_page_exception_handling (o : Oracle) (start : Str) (s : CrawlState)
    (u : Str) (rest : List Str) (htv : s.to_visit = u :: rest)
    (hseen : u ∉ s.seen) :
    (step o start s).isSome = true ∧
    (∀ msg, o.fetch u = .exn msg →
      step o start s = some { s with
        to_visit := rest, seen := u :: s.seen,
        fetched := s.fetched ++ [u], diags := s.diags ++ [Diag.error u msg] }) ∧
    (∀ html n msg, o.fetch u = .ok html → o.writeFault u = some (n, msg) →
      step o start s = some { s with
        to_visit := rest, seen := u :: s.seen,
        fetched := s.fetched ++ [u], out := s.out ++ (record u html).take n,
        diags := s.diags ++ [Diag.okd u html.length, Diag.error u msg] }) ∧
    (∀ html e tv2, o.fetch u = .ok html → o.writeFault u = none →
      linksLoop start u (u :: s.seen) (extractLinks html) rest = (tv2, some e) →
      step o start s = some { s with
        to_visit := tv2, seen := u :: s.seen,
        fetched := s.fetched ++ [u], out := s.out ++ record u html,
        okPages := s.okPages ++ [(u, html)],
        diags := s.diags ++ [Diag.okd u html.length, Diag.error u e] }) := by
  refine ⟨?_, ?_, ?_, ?_⟩
  · cases hs : step o start s with
    | none =>
      rw [step_none_iff o start s] at hs
      rw [htv] at hs
      exact List.noConfusion hs
    | some s2 => rfl
  · intro msg hf
    rcases step_full o start s u rest htv hseen with
      ⟨msg2, hf2, hs⟩ | ⟨err2, hf2, hs⟩ | ⟨html, n2, msg2, hf2, _, _⟩ |
      ⟨html, app, hf2, _, _, _, _, hs⟩ | ⟨html, app, e, hf2, _, _, _, _, hs⟩
    · rw [hf] at hf2
      injection hf2 with h
      subst h
      exact hs
    all_goals rw [hf] at hf2; exact FetchOutcome.noConfusion hf2
  · intro html n msg hf hw
    rcases step_full o start s u rest htv hseen with
      ⟨msg2, hf2, hs⟩ | ⟨err2, hf2, hs⟩ | ⟨html2, n2, msg2, hf2, hw2, hs⟩ |
      ⟨html2, app, hf2, hw2, _, _, _, hs⟩ | ⟨html2, app, e, hf2, hw2, _, _, _, hs⟩
    · rw [hf] at hf2
      exact FetchOutcome.noConfusion hf2
    · rw [hf] at hf2
      exact FetchOutcome.noConfusion hf2
    · rw [hf] at hf2
      injection hf2 with h
      subst h
      rw [hw] at hw2
      injection hw2 with h2
      injection h2 with ha hb
      subst ha
      subst hb
      exact hs
    · rw [hf] at hf2
      injection hf2 with h
      subst h
      rw [hw] at hw2
      exact Option.noConfusion hw2
    · rw [hf] at hf2
      injection hf2 with h
      subst h
      rw [hw] at hw2
      exact Option.noConfusion hw2
  · intro html e tv2 hf hw hl
    rcases step_full o start s u rest htv hseen with
      ⟨msg2, hf2, hs⟩ | ⟨err2, hf2, hs⟩ | ⟨html2, n2, msg2, hf2, hw2, hs⟩ |
      ⟨html2, app, hf2, hw2, _, _, hl2, hs⟩ | ⟨html2, app, e2, hf2, hw2, _, _, hl2, hs⟩
    · rw [hf] at hf2
      exact FetchOutcome.noConfusion hf2
    · rw [hf] at hf2
      exact FetchOutcome.noConfusion hf2
    · rw [hf] at hf2
      injection hf2 with h
      subst h
      rw [hw] at hw2
      exact Option.noConfusion hw2
    · rw [hf] at hf2
      injection hf2 with h
      subst h
      rw [hl] at hl2
      injection hl2 with h1 h2
      exact Option.noConfusion h2
    · rw [hf] at hf2
      injection hf2 with h
      subst h
      rw [hl] at hl2
      injection hl2 with h1 h2
      injection h2 with h3
      rw [← h1, ← h3] at hs
      exact hs

/-- Witness for `per_page_exception_handling` with a raising fetch. -/
theorem per_page_exception_handling_witness :
    (initState (toL "http://h/")).to_visit = [toL "http://h/"] ∧
    (toL "http://h/") ∉ (initState (toL "http://h/")).seen ∧
    step ⟨fun _ => .exn (toL "Timeout"), fun _ => none⟩ (toL "http://h/")
      (initState (toL "http://h/")) = some { initState (toL "http://h/") with
        to_visit := [], seen := [toL "http://h/"] ++ (initState (toL "http://h/")).seen,
        fetched := (initState (toL "http://h/")).fetched ++ [toL "http://h/"],
        diags := (initState (toL "http://h/")).diags ++
          [Diag.error (toL "http://h/") (toL "Timeout")] } := by
  refine ⟨rfl, by simp [initState], ?_⟩
  exact (per_page_exception_handling ⟨fun _ => .exn (toL "Timeout"), fun _ => none⟩
    (toL "http://h/") (initState (toL "http://h/")) (toL "http://h/") [] rfl
    (by simp [initState])).2.1 (toL "Timeout") rfl

/-! ## Claim C8: the scope filter -/

set_option maxRecDepth 100000 in
/-- C8 counterexample.  The claim states `inScope` holds iff the
candidate's scheme is http(s), the candidate's *host* equals the seed's
host exactly, and the candidate's path (trailing slash removed) starts
with the seed's basePath (trailing slash removed).  `same_topic` compares
`urlparse(...).netloc` — host *and port* (and userinfo) — not the host:
for seed `http://h/p` and candidate `http://h:80/p` all three of the
claim's conditions hold (the hosts are both `h`), yet the filter rejects
the candidate. -/
theorem c8_counterexample :
    same_topicE (toL "http://h/p") (toL "http://h:80/p") = .ok false ∧
    urlparseE (toL "http://h/p") [] =
      .ok ⟨toL "http", toL "h", toL "/p", [], [], []⟩ ∧
    urlparseE (toL "http://h:80/p") [] =
      .ok ⟨toL "http", toL "h:80", toL "/p", [], [], []⟩ ∧
    hostnameOf (toL "h") = hostnameOf (toL "h:80") ∧
    isStartOf (rstripSlash (toL "/p")) (rstripSlash (toL "/p")) = true := by
  decide

/-- C8 (amended): `same_topic(seed, candidate)` returns true if and only
if the candidate's scheme is `http` or `https`, the candidate's *netloc*
(the full `host[:port]` authority, not merely the host) equals the seed's
netloc exactly, and the candidate's path with trailing slashes removed
starts with the seed's path with trailing slashes removed — in
particular, an empty seed base path puts every same-netloc http(s)
candidate in scope. -/
theorem same_topic_spec (b c : Str) (pb pc : UrlParse)
    (hb : urlparseE b [] = .ok pb) (hc : urlparseE c [] = .ok pc) :
    same_topicE b c = .ok true ↔
      ((pc.scheme = toL "http" ∨ pc.scheme = toL "https") ∧
        pc.netloc = pb.netloc ∧
        isStartOf (rstripSlash pb.path) (rstripSlash pc.path) = true) := by
  unfold same_topicE
  rw [hb, hc]
  dsimp only
  split_ifs with h1 h2 h3 <;> simp_all

set_option maxRecDepth 100000 in
/-- Witness for `same_topic_spec` on the specification's own scenario. -/
theorem same_topic_spec_witness :
    urlparseE (toL "https://ex.com/docs") [] =
      .ok ⟨toL "https", toL "ex.com", toL "/docs", [], [], []⟩ ∧
    urlparseE (toL "https://ex.com/docs/a") [] =
      .ok ⟨toL "https", toL "ex.com", toL "/docs/a", [], [], []⟩ ∧
    (same_topicE (toL "https://ex.com/docs") (toL "https://ex.com/docs/a") = .ok true ↔
      ((toL "https" = toL "http" ∨ toL "https" = toL "https") ∧
        toL "ex.com" = toL "ex.com" ∧
        isStartOf (rstripSlash (toL "/docs")) (rstripSlash (toL "/docs/a")) = true)) :=
  ⟨by decide, by decide,
    same_topic_spec (toL "https://ex.com/docs") (toL "https://ex.com/docs/a")
      ⟨toL "https", toL "ex.com", toL "/docs", [], [], []⟩
      ⟨toL "https", toL "ex.com", toL "/docs/a", [], [], []⟩
      (by decide) (by decide)⟩

/-! ## String lemmas for the normaliser -/

theorem hasChar_false_iff {ch : Char} {l : Str} :
    hasChar ch l = false ↔ ∀ c ∈ l, c ≠ ch := by
  simp [hasChar]

theorem mem_takeUntil {c ch : Char} {l : Str} (h : c ∈ takeUntil ch l) : c ∈ l := by
  induction l with
  | nil => simp [takeUntil] at h
  | cons a t ih =>
    unfold takeUntil at h
    by_cases ha : a = ch
    · simp [ha] at h
    · simp only [if_neg ha, List.mem_cons] at h
      rcases h with h | h
      · exact h ▸ List.mem_cons_self a t
      · exact List.mem_cons_of_mem a (ih h)

theorem takeUntil_not_mem (ch : Char) (l : Str) : ch ∉ takeUntil ch l := by
  induction l with
  | nil => simp [takeUntil]
  | cons a t ih =>
    unfold takeUntil
    by_cases ha : a = ch
    · simp [ha]
    · simp only [if_neg ha, List.mem_cons, not_or]
      exact ⟨fun h => ha h.symm, ih⟩

theorem takeUntil_eq_self {ch : Char} {l : Str} (h : ∀ c ∈ l, c ≠ ch) :
    takeUntil ch l = l := by
  induction l with
  | nil => rfl
  | cons a t ih =>
    unfold takeUntil
    rw [if_neg (fun he => h a (List.mem_cons_self a t) he)]
    rw [ih (fun c hc => h c (List.mem_cons_of_mem a hc))]

theorem takeUntil_cons (ch a : Char) (t : Str) :
    takeUntil ch (a :: t) = if a = ch then [] else a :: takeUntil ch t := rfl

theorem afterFirst_cons (ch a : Char) (t : Str) :
    afterFirst ch (a :: t) = if a = ch then some t else afterFirst ch t := rfl

theorem takeUntil_append {ch : Char} {a : Str} (b : Str) (h : ∀ c ∈ a, c ≠ ch) :
    takeUntil ch (a ++ b) = a ++ takeUntil ch b := by
  induction a with
  | nil => rfl
  | cons x t ih =>
    have hx : ¬ x = ch := fun he => h x (List.mem_cons_self x t) he
    simp only [List.cons_append, takeUntil_cons, if_neg hx]
    rw [ih (fun c hc => h c (List.mem_cons_of_mem x hc))]

theorem takeUntil_append_cons {ch : Char} {a : Str} (b : Str) (h : ∀ c ∈ a, c ≠ ch) :
    takeUntil ch (a ++ ch :: b) = a := by
  rw [takeUntil_append (ch :: b) h, takeUntil_cons, if_pos rfl, List.append_nil]

theorem takeUntil_idem (ch : Char) (l : Str) :
    takeUntil ch (takeUntil ch l) = takeUntil ch l :=
  takeUntil_eq_self (fun c hc he => takeUntil_not_mem ch l (he ▸ hc))

theorem afterFirst_eq_none {ch : Char} {l : Str} (h : ∀ c ∈ l, c ≠ ch) :
    afterFirst ch l = none := by
  induction l with
  | nil => rfl
  | cons a t ih =>
    rw [afterFirst_cons, if_neg (fun he => h a (List.mem_cons_self a t) he)]
    exact ih (fun c hc => h c (List.mem_cons_of_mem a hc))

theorem afterFirst_append_cons {ch : Char} {a : Str} (b : Str) (h : ∀ c ∈ a, c ≠ ch) :
    afterFirst ch (a ++ ch :: b) = some b := by
  induction a with
  | nil => simp [afterFirst_cons]
  | cons x t ih =>
    simp only [List.cons_append, afterFirst_cons,
      if_neg (fun he => h x (List.mem_cons_self x t) he)]
    exact ih (fun c hc => h c (List.mem_cons_of_mem x hc))

theorem mem_afterFirst {c ch : Char} {l t : Str} (h : afterFirst ch l = some t)
    (hc : c ∈ t) : c ∈ l := by
  induction l with
  | nil => simp [afterFirst] at h
  | cons a r ih =>
    rw [afterFirst_cons] at h
    by_cases ha : a = ch
    · rw [if_pos ha] at h
      injection h with h2
      exact List.mem_cons_of_mem a (h2 ▸ hc)
    · rw [if_neg ha] at h
      exact List.mem_cons_of_mem a (ih h)

theorem takeWhile_append_all {p : Char → Bool} {a : Str} (b : Str)
    (h : ∀ c ∈ a, p c = true) :
    (a ++ b).takeWhile p = a ++ b.takeWhile p := by
  induction a with
  | nil => rfl
  | cons x t ih =>
    have hx := h x (List.mem_cons_self x t)
    simp only [List.cons_append, List.takeWhile_cons, hx, if_true, List.cons.injEq,
      true_and]
    exact ih (fun c hc => h c (List.mem_cons_of_mem x hc))

theorem dropWhile_append_all {p : Char → Bool} {a : Str} (b : Str)
    (h : ∀ c ∈ a, p c = true) :
    (a ++ b).dropWhile p = b.dropWhile p := by
  induction a with
  | nil => rfl
  | cons x t ih =>
    have hx := h x (List.mem_cons_self x t)
    simp only [List.cons_append, List.dropWhile_cons, hx, if_true]
    exact ih (fun c hc => h c (List.mem_cons_of_mem x hc))

theorem takeWhile_takeUntil {p : Char → Bool} {ch : Char} (hp : p ch = false)
    (l : Str) : (takeUntil ch l).takeWhile p = l.takeWhile p := by
  induction l with
  | nil => rfl
  | cons a t ih =>
    by_cases ha : a = ch
    · subst ha
      simp [takeUntil_cons, List.takeWhile_cons, hp]
    · cases hpa : p a
      · simp [takeUntil_cons, ha, List.takeWhile_cons, hpa]
      · simp [takeUntil_cons, ha, List.takeWhile_cons, hpa, ih]

theorem dropWhile_takeUntil {p : Char → Bool} {ch : Char} (hp : p ch = false)
    (l : Str) : (takeUntil ch l).dropWhile p = takeUntil ch (l.dropWhile p) := by
  induction l with
  | nil => rfl
  | cons a t ih =>
    by_cases ha : a = ch
    · subst ha
      simp [takeUntil_cons, List.dropWhile_cons, hp]
    · cases hpa : p a
      · simp [takeUntil_cons, ha, List.dropWhile_cons, hpa]
      · simp [takeUntil_cons, ha, List.dropWhile_cons, hpa, ih]

theorem filter_takeUntil {p : Char → Bool} {ch : Char} (hp : p ch = true)
    (l : Str) : (takeUntil ch l).filter p = takeUntil ch (l.filter p) := by
  induction l with
  | nil => rfl
  | cons a t ih =>
    by_cases ha : a = ch
    · subst ha
      simp [takeUntil_cons, List.filter_cons, hp]
    · cases hpa : p a
      · simp [takeUntil_cons, ha, List.filter_cons, hpa, ih]
      · simp [takeUntil_cons, ha, List.filter_cons, hpa, ih]

theorem takeUntil_prefix (ch : Char) (l : Str) :
    ∃ t, l = takeUntil ch l ++ t := by
  induction l with
  | nil => exact ⟨[], rfl⟩
  | cons a r ih =>
    by_cases ha : a = ch
    · exact ⟨a :: r, by simp [takeUntil_cons, ha]⟩
    · obtain ⟨t, ht⟩ := ih
      exact ⟨t, by simp only [takeUntil_cons, if_neg ha, List.cons_append, ← ht]⟩

theorem schemeGo_cons (acc : Str) (c : Char) (cs : Str) :
    schemeGo acc (c :: cs) =
      if c = ':' then some (acc, cs)
      else if isSchemeChar c then schemeGo (acc ++ [c]) cs else none := rfl

theorem schemeSplit_cons (c : Char) (cs : Str) :
    schemeSplit (c :: cs) = if c.isAlpha then schemeGo [c] cs else none := rfl

theorem schemeGo_sound {m : Str} : ∀ {acc sr rest : Str},
    schemeGo acc m = some (sr, rest) →
    ∃ t, sr = acc ++ t ∧ m = t ++ ':' :: rest ∧ ∀ c ∈ t, isSchemeChar c = true := by
  induction m with
  | nil => intro acc sr rest h; simp [schemeGo] at h
  | cons c cs ih =>
    intro acc sr rest h
    rw [schemeGo_cons] at h
    by_cases hc : c = ':'
    · rw [if_pos hc] at h
      injection h with h2
      injection h2 with h3 h4
      exact ⟨[], by simp [h3], by simp [hc, h4], by simp⟩
    · rw [if_neg hc] at h
      by_cases hsc : isSchemeChar c = true
      · rw [if_pos hsc] at h
        obtain ⟨t, hsr, hcs, ht⟩ := ih h
        refine ⟨c :: t, by simp [hsr], by simp [hcs], ?_⟩
        intro d hd
        rcases List.mem_cons.mp hd with rfl | hd2
        · exact hsc
        · exact ht d hd2
      · rw [if_neg hsc] at h
        exact Option.noConfusion h

theorem schemeGo_complete {t : Str} : ∀ (acc rest : Str),
    (∀ c ∈ t, isSchemeChar c = true) →
    schemeGo acc (t ++ ':' :: rest) = some (acc ++ t, rest) := by
  induction t with
  | nil => intro acc rest _; simp [schemeGo_cons]
  | cons c cs ih =>
    intro acc rest h
    have hc : isSchemeChar c = true := h c (List.mem_cons_self c cs)
    have hcne : ¬ c = ':' := by
      intro he
      rw [he] at hc
      exact absurd hc (by decide)
    simp only [List.cons_append, schemeGo_cons, if_neg hcne, hc, if_true]
    rw [ih (acc ++ [c]) rest (fun d hd => h d (List.mem_cons_of_mem c hd))]
    simp

theorem schemeSplit_sound {w sr rest : Str} (h : schemeSplit w = some (sr, rest)) :
    w = sr ++ ':' :: rest ∧ sr ≠ [] ∧ (∀ c ∈ sr, isSchemeChar c = true) ∧
      ∃ c0 t0, sr = c0 :: t0 ∧ c0.isAlpha = true := by
  cases w with
  | nil => simp [schemeSplit] at h
  | cons c cs =>
    rw [schemeSplit_cons] at h
    by_cases hca : c.isAlpha = true
    · rw [if_pos hca] at h
      obtain ⟨t, hsr, hcs, ht⟩ := schemeGo_sound h
      have hsr2 : sr = c :: t := by simpa using hsr
      refine ⟨by rw [hsr2, hcs]; simp, by rw [hsr2]; simp, ?_, c, t, hsr2, hca⟩
      intro d hd
      rw [hsr2] at hd
      rcases List.mem_cons.mp hd with rfl | hd2
      · simp [isSchemeChar, hca]
      · exact ht d hd2
    · rw [if_neg hca] at h
      exact Option.noConfusion h

theorem schemeSplit_complete {c0 : Char} {t0 rest : Str} (hca : c0.isAlpha = true)
    (ht : ∀ c ∈ t0, isSchemeChar c = true) :
    schemeSplit ((c0 :: t0) ++ ':' :: rest) = some (c0 :: t0, rest) := by
  simp only [List.cons_append, schemeSplit_cons, hca, if_true]
  rw [@schemeGo_complete t0 [c0] rest ht]
  simp

theorem schemeSplit_takeUntil (w : Str) :
    schemeSplit (takeUntil '?' w) =
      (schemeSplit w).map (fun p => (p.1, takeUntil '?' p.2)) := by
  cases hs : schemeSplit w with
  | some p =>
    obtain ⟨sr, rest⟩ := p
    obtain ⟨hw, hne, hchars, c0, t0, hsr, hca⟩ := schemeSplit_sound hs
    have hnoq : ∀ c ∈ sr ++ [':'], c ≠ '?' := by
      intro c hc he
      rcases List.mem_append.mp hc with hc1 | hc1
      · have := hchars c hc1
        rw [he] at this
        exact absurd this (by decide)
      · simp at hc1
        rw [hc1] at he
        exact absurd he (by decide)
    have hw2 : w = (sr ++ [':']) ++ rest := by rw [hw]; simp
    have htu : takeUntil '?' w = (sr ++ [':']) ++ takeUntil '?' rest := by
      rw [hw2, takeUntil_append rest hnoq]
    have ht0 : ∀ c ∈ t0, isSchemeChar c = true := by
      intro c hc
      exact hchars c (by rw [hsr]; exact List.mem_cons_of_mem c0 hc)
    rw [htu, hsr]
    have := @schemeSplit_complete c0 t0 (takeUntil '?' rest) hca ht0
    simp only [List.append_assoc, List.singleton_append] at this ⊢
    rw [this]
    simp [hsr]
  | none =>
    cases hs2 : schemeSplit (takeUntil '?' w) with
    | none => simp
    | some p =>
      exfalso
      obtain ⟨sr, rest⟩ := p
      obtain ⟨hw2, hne, hchars, c0, t0, hsr, hca⟩ := schemeSplit_sound hs2
      obtain ⟨suf, hsuf⟩ := takeUntil_prefix '?' w
      rw [hw2] at hsuf
      have ht0 : ∀ c ∈ t0, isSchemeChar c = true := by
        intro c hc
        exact hchars c (by rw [hsr]; exact List.mem_cons_of_mem c0 hc)
      have hcomp := @schemeSplit_complete c0 t0 (rest ++ suf) hca ht0
      rw [hsr] at hsuf
      have hw3 : w = (c0 :: t0) ++ ':' :: (rest ++ suf) := by
        rw [hsuf]; simp
      rw [hw3, hcomp] at hs
      exact Option.noConfusion hs

theorem takeUntil_take2 {ch : Char} (hch : ¬ ch = '/') (l : Str) :
    (takeUntil ch l).take 2 = toL "//" ↔ l.take 2 = toL "//" := by
  cases l with
  | nil => simp [takeUntil]
  | cons a t =>
    by_cases ha : a = ch
    · subst ha
      constructor
      · intro h
        simp [takeUntil_cons, toL] at h
      · intro h
        exfalso
        have : a = '/' := by
          have := congrArg (fun x => x.headD ' ') h
          simpa [toL] using this
        exact hch this
    · cases t with
      | nil =>
        simp only [takeUntil_cons, if_neg ha, takeUntil]
      | cons b t2 =>
        by_cases hb : b = ch
        · subst hb
          constructor
          · intro h
            simp [takeUntil_cons, ha, takeUntil, toL] at h
          · intro h
            exfalso
            have : b = '/' := by
              have h2 := congrArg (fun x => x.tail.headD ' ') h
              simpa [toL] using h2
            exact hch this
        · simp only [takeUntil_cons, if_neg ha, if_neg hb]
          constructor
          · intro h
            have h2 := congrArg (fun x => x.take 2) h
            simpa [toL] using h2
          · intro h
            have h2 := congrArg (fun x => x.take 2) h
            simpa [toL] using h2

theorem takeUntil_drop2 {ch : Char} (l : Str) (h : l.take 2 = toL "//")
    (hch : ¬ ch = '/') :
    (takeUntil ch l).drop 2 = takeUntil ch (l.drop 2) := by
  match l with
  | [] => simp [toL] at h
  | [a] => simp [toL] at h
  | a :: b :: t =>
    have hab : a = '/' ∧ b = '/' := by
      constructor
      · have := congrArg (fun x => x.headD ' ') h
        simpa [toL] using this
      · have := congrArg (fun x => x.tail.headD ' ') h
        simpa [toL] using this
    have ha : ¬ a = ch := by rw [hab.1]; intro he; exact hch he.symm
    have hb : ¬ b = ch := by rw [hab.2]; intro he; exact hch he.symm
    simp [takeUntil_cons, ha, hb]

theorem afterFirst_none_sound {ch : Char} {l : Str} (h : afterFirst ch l = none) :
    ∀ c ∈ l, c ≠ ch := by
  induction l with
  | nil => simp
  | cons a t ih =>
    rw [afterFirst_cons] at h
    by_cases ha : a = ch
    · rw [if_pos ha] at h
      exact Option.noConfusion h
    · rw [if_neg ha] at h
      intro c hc
      rcases List.mem_cons.mp hc with rfl | hc2
      · exact ha
      · exact ih h c hc2

theorem takeUntil_head (ch : Char) (l : Str) :
    takeUntil ch l = [] ∨ (takeUntil ch l).take 1 = l.take 1 := by
  cases l with
  | nil => exact .inl rfl
  | cons a t =>
    by_cases ha : a = ch
    · exact .inl (by simp [takeUntil_cons, ha])
    · exact .inr (by simp [takeUntil_cons, ha])

/-! ### Inversion lemmas for the phases of `urlsplit` -/

theorem splitFragQuery_path_props (rest2 : Str) :
    ∀ c ∈ (splitFragQuery rest2).1, c ∈ rest2 ∧ c ≠ '#' ∧ c ≠ '?' := by
  unfold splitFragQuery
  rcases h1 : afterFirst '#' rest2 with _ | f <;> dsimp only
  · have hf1 := afterFirst_none_sound h1
    rcases h2 : afterFirst '?' rest2 with _ | q <;> dsimp only
    · have hq1 := afterFirst_none_sound h2
      intro c hc
      exact ⟨hc, hf1 c hc, hq1 c hc⟩
    · intro c hc
      have hcm := mem_takeUntil hc
      exact ⟨hcm, hf1 c hcm, fun he => takeUntil_not_mem '?' rest2 (he ▸ hc)⟩
  · rcases h2 : afterFirst '?' (takeUntil '#' rest2) with _ | q <;> dsimp only
    · have hq1 := afterFirst_none_sound h2
      intro c hc
      exact ⟨mem_takeUntil hc, fun he => takeUntil_not_mem '#' rest2 (he ▸ hc), hq1 c hc⟩
    · intro c hc
      have hcm := mem_takeUntil hc
      exact ⟨mem_takeUntil hcm, fun he => takeUntil_not_mem '#' rest2 (he ▸ hcm),
        fun he => takeUntil_not_mem '?' (takeUntil '#' rest2) (he ▸ hc)⟩

theorem splitFragQuery_path_head (rest2 : Str) :
    (splitFragQuery rest2).1 = [] ∨ (splitFragQuery rest2).1.take 1 = rest2.take 1 := by
  unfold splitFragQuery
  rcases h1 : afterFirst '#' rest2 with _ | f <;> dsimp only
  · rcases h2 : afterFirst '?' rest2 with _ | q <;> dsimp only
    · exact .inr rfl
    · exact takeUntil_head '?' rest2
  · rcases h2 : afterFirst '?' (takeUntil '#' rest2) with _ | q <;> dsimp only
    · exact takeUntil_head '#' rest2
    · rcases takeUntil_head '?' (takeUntil '#' rest2) with hp | hp
      · exact .inl hp
      · rcases takeUntil_head '#' rest2 with hp2 | hp2
        · exact .inl (by rw [hp2]; rfl)
        · exact .inr (hp.trans hp2)

theorem splitFragQuery_clean {pp : Str} (h1 : ∀ c ∈ pp, c ≠ '#')
    (h2 : ∀ c ∈ pp, c ≠ '?') : splitFragQuery pp = (pp, [], []) := by
  unfold splitFragQuery
  rw [afterFirst_eq_none h1]
  dsimp only
  rw [afterFirst_eq_none h2]

theorem splitFragQuery_path_of_noH {rest2 : Str} (h : ∀ c ∈ rest2, c ≠ '#') :
    (splitFragQuery rest2).1 = takeUntil '?' rest2 := by
  unfold splitFragQuery
  rw [afterFirst_eq_none h]
  dsimp only
  rcases h2 : afterFirst '?' rest2 with _ | q
  · dsimp only
    rw [takeUntil_eq_self (afterFirst_none_sound h2)]
  · rfl

theorem splitFragQuery_takeUntil {rest2 : Str} (h : ∀ c ∈ rest2, c ≠ '#') :
    splitFragQuery (takeUntil '?' rest2) = ((splitFragQuery rest2).1, [], []) := by
  have hnoH : ∀ c ∈ takeUntil '?' rest2, c ≠ '#' := fun c hc => h c (mem_takeUntil hc)
  have hnoQ : ∀ c ∈ takeUntil '?' rest2, c ≠ '?' :=
    fun c hc he => takeUntil_not_mem '?' rest2 (he ▸ hc)
  rw [splitFragQuery_clean hnoH hnoQ, splitFragQuery_path_of_noH h]

theorem urlsplitNetloc_ok {sch netloc rest2 : Str} {s : UrlSplit}
    (h : urlsplitNetloc sch netloc rest2 = .ok s) :
    hasChar '[' netloc = hasChar ']' netloc ∧
    s = ⟨sch, netloc, (splitFragQuery rest2).1, (splitFragQuery rest2).2.1,
      (splitFragQuery rest2).2.2⟩ := by
  unfold urlsplitNetloc at h
  by_cases hbr : hasChar '[' netloc ≠ hasChar ']' netloc
  · rw [if_pos hbr] at h
    exact PE.noConfusion h
  · rw [if_neg hbr] at h
    rcases hfq : splitFragQuery rest2 with ⟨p, q, f⟩
    rw [hfq] at h
    injection h with h2
    refine ⟨not_ne_iff.mp hbr, ?_⟩
    dsimp only
    exact h2.symm

theorem urlsplitNetloc_eq_ok {sch netloc rest2 : Str}
    (hbr : hasChar '[' netloc = hasChar ']' netloc) :
    urlsplitNetloc sch netloc rest2 =
      .ok ⟨sch, netloc, (splitFragQuery rest2).1, (splitFragQuery rest2).2.1,
        (splitFragQuery rest2).2.2⟩ := by
  unfold urlsplitNetloc
  rw [if_neg (by simp [hbr])]

theorem urlsplitAfterScheme_wf {sch rest1 : Str} {s : UrlSplit}
    (hclean : ∀ c ∈ rest1, isUnsafeChar c = false)
    (h : urlsplitAfterScheme sch rest1 = .ok s) :
    (∀ c ∈ s.netloc, isNetlocEnd c = false ∧ isUnsafeChar c = false) ∧
    hasChar '[' s.netloc = hasChar ']' s.netloc ∧
    (∀ c ∈ s.path, c ≠ '#' ∧ c ≠ '?' ∧ isUnsafeChar c = false) ∧
    (s.netloc ≠ [] → s.path = [] ∨ s.path.take 1 = toL "/") ∧
    s.scheme = sch := by
  unfold urlsplitAfterScheme at h
  by_cases ht2 : rest1.take 2 = toL "//"
  · rw [if_pos ht2] at h
    obtain ⟨hbr, hs⟩ := urlsplitNetloc_ok h
    subst hs
    refine ⟨?_, hbr, ?_, ?_, rfl⟩
    · intro c hc
      constructor
      · have := List.mem_takeWhile_imp hc
        simpa using this
      · exact hclean c (List.drop_subset 2 rest1 ((List.takeWhile_sublist _).subset hc))
    · intro c hc
      obtain ⟨hc2, hh, hq⟩ := splitFragQuery_path_props _ c hc
      exact ⟨hh, hq,
        hclean c (List.drop_subset 2 rest1 ((List.dropWhile_sublist _).subset hc2))⟩
    · intro hne
      rcases splitFragQuery_path_head
          ((rest1.drop 2).dropWhile (fun c => !isNetlocEnd c)) with hp | hp
      · exact .inl hp
      · cases hpath : (splitFragQuery
            ((rest1.drop 2).dropWhile (fun c => !isNetlocEnd c))).1 with
        | nil => exact .inl rfl
        | cons c0 pt =>
          right
          rw [hpath] at hp
          cases hdw : (rest1.drop 2).dropWhile (fun c => !isNetlocEnd c) with
          | nil =>
            rw [hdw] at hp
            simp at hp
          | cons d0 dt =>
            rw [hdw] at hp
            have e1 : List.take 1 (c0 :: pt) = [c0] := rfl
            have e2 : List.take 1 (d0 :: dt) = [d0] := rfl
            rw [e1, e2] at hp
            injection hp with hp1
            have hd0 : (fun c => !isNetlocEnd c) d0 = false := by
              have := @List.head_dropWhile_not Char (fun c => !isNetlocEnd c)
                (rest1.drop 2) (by simp [hdw])
              simpa [hdw] using this
            have hd0' : isNetlocEnd d0 = true := by simpa using hd0
            have hc0mem : c0 ∈ (splitFragQuery
                ((rest1.drop 2).dropWhile (fun c => !isNetlocEnd c))).1 := by
              rw [hpath]
              exact List.mem_cons_self c0 pt
            obtain ⟨_, hh, hq⟩ := splitFragQuery_path_props _ c0 hc0mem
            have : d0 = '/' := by
              have h3 : d0 = '/' ∨ d0 = '?' ∨ d0 = '#' := by
                simpa [isNetlocEnd, or_assoc] using hd0'
              rcases h3 with h3 | h3 | h3
              · exact h3
              · exact absurd (hp1.trans h3) hq
              · exact absurd (hp1.trans h3) hh
            have hgoal : List.take 1 (c0 :: pt) = toL "/" := by
              rw [hp1, this]
              rfl
            exact hgoal
  · rw [if_neg ht2] at h
    obtain ⟨hbr, hs⟩ := urlsplitNetloc_ok h
    subst hs
    refine ⟨?_, rfl, ?_, ?_, rfl⟩
    · intro c hc
      exact absurd hc (List.not_mem_nil c)
    · intro c hc
      obtain ⟨hc2, hh, hq⟩ := splitFragQuery_path_props _ c hc
      exact ⟨hh, hq, hclean c hc2⟩
    · intro hne
      exact absurd rfl hne

theorem urlsplitE_eq_some {url ds sr r : Str}
    (hss : schemeSplit (removeUnsafe (url.dropWhile isC0OrSpace)) = some (sr, r)) :
    urlsplitE url ds = urlsplitAfterScheme (lowerStr sr) r := by
  simp only [urlsplitE, hss]

theorem urlsplitE_eq_none {url ds : Str}
    (hss : schemeSplit (removeUnsafe (url.dropWhile isC0OrSpace)) = none) :
    urlsplitE url ds = urlsplitAfterScheme (removeUnsafe (stripC0Space ds))
      (removeUnsafe (url.dropWhile isC0OrSpace)) := by
  simp only [urlsplitE, hss]

theorem removeUnsafe_clean (l : Str) : ∀ c ∈ removeUnsafe l, isUnsafeChar c = false := by
  intro c hc
  have := List.mem_filter.mp hc
  simpa using this.2

theorem urlsplit_wf {url ds : Str} {s : UrlSplit} (h : urlsplitE url ds = .ok s) :
    (∀ c ∈ s.netloc, isNetlocEnd c = false ∧ isUnsafeChar c = false) ∧
    hasChar '[' s.netloc = hasChar ']' s.netloc ∧
    (∀ c ∈ s.path, c ≠ '#' ∧ c ≠ '?' ∧ isUnsafeChar c = false) ∧
    (s.netloc ≠ [] → s.path = [] ∨ s.path.take 1 = toL "/") := by
  rcases hss : schemeSplit (removeUnsafe (url.dropWhile isC0OrSpace)) with _ | ⟨sr, r⟩
  · rw [urlsplitE_eq_none hss] at h
    obtain ⟨h1, h2, h3, h4, _⟩ := urlsplitAfterScheme_wf (removeUnsafe_clean _) h
    exact ⟨h1, h2, h3, h4⟩
  · rw [urlsplitE_eq_some hss] at h
    obtain ⟨hw, _, _, _⟩ := schemeSplit_sound hss
    have hrclean : ∀ c ∈ r, isUnsafeChar c = false := by
      intro c hc
      exact removeUnsafe_clean (url.dropWhile isC0OrSpace) c
        (by rw [hw]; exact List.mem_append.mpr (.inr (List.mem_cons_of_mem _ hc)))
    obtain ⟨h1, h2, h3, h4, _⟩ := urlsplitAfterScheme_wf hrclean h
    exact ⟨h1, h2, h3, h4⟩


/-! ### `lastSlashSplit` and `_splitparams` -/

theorem hasChar_cons (ch c : Char) (cs : Str) :
    hasChar ch (c :: cs) = (decide (c = ch) || hasChar ch cs) := by
  simp [hasChar]

theorem lastSlashSplit_cons (c : Char) (cs : Str) :
    lastSlashSplit (c :: cs) =
      if hasChar '/' cs then (c :: (lastSlashSplit cs).1, (lastSlashSplit cs).2)
      else if c = '/' then (['/'], cs) else ([], c :: cs) := rfl

theorem lastSlashSplit_glue (u : Str) :
    (lastSlashSplit u).1 ++ (lastSlashSplit u).2 = u := by
  induction u with
  | nil => rfl
  | cons c cs ih =>
    rw [lastSlashSplit_cons]
    by_cases h : hasChar '/' cs = true
    · rw [if_pos h]
      dsimp only
      rw [List.cons_append, ih]
    · rw [if_neg h]
      by_cases hc : c = '/'
      · rw [if_pos hc, hc]
        rfl
      · rw [if_neg hc]
        rfl

theorem lastSlashSplit_suffix_noslash (u : Str) :
    hasChar '/' (lastSlashSplit u).2 = false := by
  induction u with
  | nil => rfl
  | cons c cs ih =>
    rw [lastSlashSplit_cons]
    by_cases h : hasChar '/' cs = true
    · rw [if_pos h]
      exact ih
    · rw [if_neg h]
      have h2 : hasChar '/' cs = false := by
        cases hh : hasChar '/' cs
        · rfl
        · exact absurd hh h
      by_cases hc : c = '/'
      · rw [if_pos hc]
        exact h2
      · rw [if_neg hc]
        dsimp only
        rw [hasChar_cons, h2]
        simp [hc]

theorem lastSlashSplit_prefix_cases (u : Str) :
    (lastSlashSplit u).1 = [] ∨ ∃ a0, (lastSlashSplit u).1 = a0 ++ ['/'] := by
  induction u with
  | nil => exact .inl rfl
  | cons c cs ih =>
    rw [lastSlashSplit_cons]
    by_cases h : hasChar '/' cs = true
    · rw [if_pos h]
      dsimp only
      rcases ih with h1 | ⟨a0, h1⟩
      · exfalso
        have hg := lastSlashSplit_glue cs
        rw [h1, List.nil_append] at hg
        have hns := lastSlashSplit_suffix_noslash cs
        rw [hg, h] at hns
        exact Bool.noConfusion hns
      · exact .inr ⟨c :: a0, by rw [h1]; rfl⟩
    · rw [if_neg h]
      by_cases hc : c = '/'
      · rw [if_pos hc]
        exact .inr ⟨[], rfl⟩
      · rw [if_neg hc]
        exact .inl rfl

theorem lastSlashSplit_append_slash {b : Str} (a0 : Str) (hb : hasChar '/' b = false) :
    lastSlashSplit (a0 ++ '/' :: b) = (a0 ++ ['/'], b) := by
  induction a0 with
  | nil =>
    rw [List.nil_append, lastSlashSplit_cons, if_neg (by rw [hb]; simp), if_pos rfl]
    rfl
  | cons c a ih =>
    rw [List.cons_append, lastSlashSplit_cons]
    have hmem : hasChar '/' (a ++ '/' :: b) = true := by
      unfold hasChar
      rw [List.any_eq_true]
      exact ⟨'/', List.mem_append.mpr (.inr (List.mem_cons_self _ _)), by simp⟩
    rw [if_pos hmem, ih]
    rfl

theorem lastSlashSplit_noslash {u : Str} (h : hasChar '/' u = false) :
    lastSlashSplit u = ([], u) := by
  cases u with
  | nil => rfl
  | cons c cs =>
    rw [hasChar_cons] at h
    have hc : ¬ c = '/' := by
      intro he
      rw [he] at h
      simp at h
    have hcs : hasChar '/' cs = false := by
      cases hh : hasChar '/' cs
      · rfl
      · rw [hh] at h
        simp at h
    rw [lastSlashSplit_cons, if_neg (by rw [hcs]; simp), if_neg hc]

theorem mem_lastSlashSplit_left {c : Char} {u : Str}
    (h : c ∈ (lastSlashSplit u).1) : c ∈ u := by
  rw [← lastSlashSplit_glue u]
  exact List.mem_append.mpr (.inl h)

theorem mem_lastSlashSplit_right {c : Char} {u : Str}
    (h : c ∈ (lastSlashSplit u).2) : c ∈ u := by
  rw [← lastSlashSplit_glue u]
  exact List.mem_append.mpr (.inr h)

theorem splitparamsPy_eq (u : Str) : splitparamsPy u =
    match afterFirst ';' (lastSlashSplit u).2 with
    | some pr => ((lastSlashSplit u).1 ++ takeUntil ';' (lastSlashSplit u).2, pr)
    | none => (u, []) := rfl

theorem mem_splitparamsPy_left {c : Char} {v : Str}
    (h : c ∈ (splitparamsPy v).1) : c ∈ v := by
  rw [splitparamsPy_eq] at h
  rcases haf : afterFirst ';' (lastSlashSplit v).2 with _ | pr
  · rw [haf] at h
    exact h
  · rw [haf] at h
    dsimp only at h
    rcases List.mem_append.mp h with h1 | h1
    · exact mem_lastSlashSplit_left h1
    · exact mem_lastSlashSplit_right (mem_takeUntil h1)

theorem mem_splitparamsPy_right {c : Char} {v : Str}
    (h : c ∈ (splitparamsPy v).2) : c ∈ v := by
  rw [splitparamsPy_eq] at h
  rcases haf : afterFirst ';' (lastSlashSplit v).2 with _ | pr
  · rw [haf] at h
    exact absurd h (List.not_mem_nil c)
  · rw [haf] at h
    dsimp only at h
    exact mem_lastSlashSplit_right (mem_afterFirst haf h)

theorem splitparamsPy_PPOk (u : Str) :
    hasChar '/' (splitparamsPy u).2 = false ∧
    hasChar ';' (lastSlashSplit (splitparamsPy u).1).2 = false := by
  rw [splitparamsPy_eq]
  rcases haf : afterFirst ';' (lastSlashSplit u).2 with _ | pr
  · dsimp only
    refine ⟨rfl, ?_⟩
    rw [hasChar_false_iff]
    intro c hc
    exact afterFirst_none_sound haf c
      (by rw [← lastSlashSplit_glue u] at hc ⊢; exact hc)
  · dsimp only
    have hns := lastSlashSplit_suffix_noslash u
    rw [hasChar_false_iff] at hns
    constructor
    · rw [hasChar_false_iff]
      intro c hc
      exact hns c (mem_afterFirst haf hc)
    · have htu_noslash : hasChar '/' (takeUntil ';' (lastSlashSplit u).2) = false := by
        rw [hasChar_false_iff]
        intro c hc
        exact hns c (mem_takeUntil hc)
      have htu_nosemi : ∀ c ∈ takeUntil ';' (lastSlashSplit u).2, c ≠ ';' :=
        fun c hc he => takeUntil_not_mem ';' (lastSlashSplit u).2 (he ▸ hc)
      rcases lastSlashSplit_prefix_cases u with hp | ⟨a0, hp⟩
      · rw [hp, List.nil_append, lastSlashSplit_noslash htu_noslash]
        rw [hasChar_false_iff]
        exact htu_nosemi
      · rw [hp, List.append_assoc, List.singleton_append,
          lastSlashSplit_append_slash a0 htu_noslash]
        rw [hasChar_false_iff]
        exact htu_nosemi

theorem splitparamsPy_reassemble {p prm : Str}
    (h1 : hasChar '/' prm = false)
    (h2 : hasChar ';' (lastSlashSplit p).2 = false) :
    splitparamsPy (p ++ ';' :: prm) = (p, prm) := by
  rcases hls : lastSlashSplit p with ⟨pre, suf⟩
  have hglue : pre ++ suf = p := by
    rw [← lastSlashSplit_glue p, hls]
  have hsufnoslash : hasChar '/' suf = false := by
    have := lastSlashSplit_suffix_noslash p
    rw [hls] at this
    exact this
  have hsufsemi : ∀ c ∈ suf, c ≠ ';' := by
    rw [hls] at h2
    exact hasChar_false_iff.mp h2
  have hcases := lastSlashSplit_prefix_cases p
  rw [hls] at hcases
  dsimp only at hcases
  have htail : hasChar '/' (suf ++ ';' :: prm) = false := by
    rw [hasChar_false_iff]
    intro c hc he
    rcases List.mem_append.mp hc with hc1 | hc1
    · exact hasChar_false_iff.mp hsufnoslash c hc1 he
    · rcases List.mem_cons.mp hc1 with rfl | hc2
      · exact absurd he (by decide)
      · exact hasChar_false_iff.mp h1 c hc2 he
  rcases hcases with hp | ⟨a0, hp⟩
  · have hpeq : p = suf := by
      rw [← hglue, hp, List.nil_append]
    have hkey : p ++ ';' :: prm = suf ++ ';' :: prm := by rw [hpeq]
    rw [splitparamsPy_eq, hkey, lastSlashSplit_noslash htail]
    dsimp only
    rw [afterFirst_append_cons prm hsufsemi]
    dsimp only
    rw [takeUntil_append_cons prm hsufsemi, List.nil_append, hpeq]
  · have hkey : p ++ ';' :: prm = a0 ++ '/' :: (suf ++ ';' :: prm) := by
      rw [← hglue, hp]
      simp
    rw [splitparamsPy_eq, hkey, lastSlashSplit_append_slash a0 htail]
    dsimp only
    rw [afterFirst_append_cons prm hsufsemi]
    dsimp only
    rw [takeUntil_append_cons prm hsufsemi]
    have hfin : (a0 ++ ['/']) ++ suf = p := by
      rw [← hglue, hp]
    rw [hfin]

theorem splitparamsPy_self {p : Str}
    (h2 : hasChar ';' (lastSlashSplit p).2 = false) :
    splitparamsPy p = (p, []) := by
  rw [splitparamsPy_eq, afterFirst_eq_none (hasChar_false_iff.mp h2)]

/-! ### `urlparse`-level wrappers -/

theorem urlparseE_eq_ok {url ds : Str} {s : UrlSplit} (h : urlsplitE url ds = .ok s) :
    urlparseE url ds = .ok ⟨s.scheme, s.netloc,
      (if s.scheme ∈ uses_params ∧ hasChar ';' s.path then splitparamsPy s.path
        else (s.path, [])).1,
      (if s.scheme ∈ uses_params ∧ hasChar ';' s.path then splitparamsPy s.path
        else (s.path, [])).2,
      s.query, s.fragment⟩ := by
  unfold urlparseE
  rw [h]

theorem urlparseE_eq_err {url ds e : Str} (h : urlsplitE url ds = .err e) :
    urlparseE url ds = .err e := by
  unfold urlparseE
  rw [h]

theorem urlparse_wf {w ds : Str} {u : UrlParse} (h : urlparseE w ds = .ok u) :
    (∀ c ∈ u.netloc, isNetlocEnd c = false ∧ isUnsafeChar c = false) ∧
    hasChar '[' u.netloc = hasChar ']' u.netloc ∧
    (∀ c ∈ u.path, c ≠ '#' ∧ c ≠ '?' ∧ isUnsafeChar c = false) ∧
    (∀ c ∈ u.params, c ≠ '#' ∧ c ≠ '?' ∧ isUnsafeChar c = false) ∧
    (u.scheme ∈ uses_params → hasChar '/' u.params = false ∧
      hasChar ';' (lastSlashSplit u.path).2 = false) := by
  rcases hsp : urlsplitE w ds with s | e
  · rw [urlparseE_eq_ok hsp] at h
    injection h with h2
    obtain ⟨hn, hbr, hpath, _⟩ := urlsplit_wf hsp
    subst h2
    by_cases hcond : s.scheme ∈ uses_params ∧ hasChar ';' s.path
    · rw [if_pos hcond]
      dsimp only
      obtain ⟨hpp1, hpp2⟩ := splitparamsPy_PPOk s.path
      exact ⟨hn, hbr,
        fun c hc => hpath c (mem_splitparamsPy_left hc),
        fun c hc => hpath c (mem_splitparamsPy_right hc),
        fun _ => ⟨hpp1, hpp2⟩⟩
    · rw [if_neg hcond]
      dsimp only
      refine ⟨hn, hbr, hpath, fun c hc => absurd hc (List.not_mem_nil c), ?_⟩
      intro hsp2
      have hnosemi : hasChar ';' s.path = false := by
        cases hh : hasChar ';' s.path
        · rfl
        · exact absurd ⟨hsp2, hh⟩ hcond
      refine ⟨rfl, ?_⟩
      rw [hasChar_false_iff]
      intro c hc
      exact hasChar_false_iff.mp hnosemi c (mem_lastSlashSplit_right hc)
  · rw [urlparseE_eq_err hsp] at h
    exact PE.noConfusion h

/-! ### Fragment emptiness for `#`-free inputs -/

theorem splitFragQuery_frag_empty {r : Str} (h : ∀ c ∈ r, c ≠ '#') :
    (splitFragQuery r).2.2 = [] := by
  unfold splitFragQuery
  rw [afterFirst_eq_none h]
  dsimp only
  rcases h2 : afterFirst '?' r with _ | q <;> rfl

theorem urlsplitAfterScheme_frag_empty {sch r : Str} {s : UrlSplit}
    (hr : ∀ c ∈ r, c ≠ '#') (h : urlsplitAfterScheme sch r = .ok s) :
    s.fragment = [] := by
  unfold urlsplitAfterScheme at h
  by_cases ht : r.take 2 = toL "//"
  · rw [if_pos ht] at h
    obtain ⟨_, hs⟩ := urlsplitNetloc_ok h
    subst hs
    apply splitFragQuery_frag_empty
    intro c hc
    exact hr c (List.drop_subset 2 r ((List.dropWhile_sublist _).subset hc))
  · rw [if_neg ht] at h
    obtain ⟨_, hs⟩ := urlsplitNetloc_ok h
    subst hs
    exact splitFragQuery_frag_empty hr

theorem urlsplit_frag_empty {w ds : Str} {s : UrlSplit} (hw : ∀ c ∈ w, c ≠ '#')
    (h : urlsplitE w ds = .ok s) : s.fragment = [] := by
  have hurl1 : ∀ c ∈ removeUnsafe (w.dropWhile isC0OrSpace), c ≠ '#' := by
    intro c hc
    apply hw
    have h1 : c ∈ w.dropWhile isC0OrSpace := List.mem_of_mem_filter hc
    exact (List.dropWhile_sublist _).subset h1
  rcases hss : schemeSplit (removeUnsafe (w.dropWhile isC0OrSpace)) with _ | ⟨sr, r⟩
  · rw [urlsplitE_eq_none hss] at h
    exact urlsplitAfterScheme_frag_empty hurl1 h
  · rw [urlsplitE_eq_some hss] at h
    obtain ⟨hweq, _, _, _⟩ := schemeSplit_sound hss
    have hr : ∀ c ∈ r, c ≠ '#' := by
      intro c hc
      exact hurl1 c (by rw [hweq]; exact List.mem_append.mpr (.inr (List.mem_cons_of_mem _ hc)))
    exact urlsplitAfterScheme_frag_empty hr h

theorem urlparse_frag_empty {w ds : Str} {u : UrlParse} (hw : ∀ c ∈ w, c ≠ '#')
    (h : urlparseE w ds = .ok u) : u.fragment = [] := by
  rcases hsp : urlsplitE w ds with s | e
  · rw [urlparseE_eq_ok hsp] at h
    injection h with h2
    subst h2
    exact urlsplit_frag_empty hw hsp
  · rw [urlparseE_eq_err hsp] at h
    exact PE.noConfusion h


/-! ### Parsing a query-truncated URL -/

theorem urlsplitAfterScheme_takeUntilQ {sch r : Str} {s : UrlSplit}
    (hr : ∀ c ∈ r, c ≠ '#') (h : urlsplitAfterScheme sch r = .ok s) :
    urlsplitAfterScheme sch (takeUntil '?' r) =
      .ok ⟨s.scheme, s.netloc, s.path, [], []⟩ := by
  unfold urlsplitAfterScheme at h ⊢
  by_cases ht : r.take 2 = toL "//"
  · rw [if_pos ht] at h
    rw [if_pos ((takeUntil_take2 (by decide) r).mpr ht)]
    rw [takeUntil_drop2 r ht (by decide)]
    rw [takeWhile_takeUntil (by decide) (r.drop 2)]
    rw [dropWhile_takeUntil (by decide) (r.drop 2)]
    obtain ⟨hbr, hs⟩ := urlsplitNetloc_ok h
    rw [urlsplitNetloc_eq_ok hbr]
    have hnoH : ∀ c ∈ (r.drop 2).dropWhile (fun c => !isNetlocEnd c), c ≠ '#' := by
      intro c hc
      exact hr c (List.drop_subset 2 r ((List.dropWhile_sublist _).subset hc))
    rw [splitFragQuery_takeUntil hnoH, hs]
  · rw [if_neg ht] at h
    rw [if_neg (fun hcon => ht ((takeUntil_take2 (by decide) r).mp hcon))]
    obtain ⟨hbr, hs⟩ := urlsplitNetloc_ok h
    rw [urlsplitNetloc_eq_ok hbr]
    rw [splitFragQuery_takeUntil hr, hs]

theorem urlsplitE_takeUntilQ {w ds : Str} {s : UrlSplit} (hw : ∀ c ∈ w, c ≠ '#')
    (h : urlsplitE w ds = .ok s) :
    urlsplitE (takeUntil '?' w) ds = .ok ⟨s.scheme, s.netloc, s.path, [], []⟩ := by
  have hpre : removeUnsafe ((takeUntil '?' w).dropWhile isC0OrSpace) =
      takeUntil '?' (removeUnsafe (w.dropWhile isC0OrSpace)) := by
    unfold removeUnsafe
    rw [dropWhile_takeUntil (by decide) w, filter_takeUntil (by decide)]
  have hurl1 : ∀ c ∈ removeUnsafe (w.dropWhile isC0OrSpace), c ≠ '#' := by
    intro c hc
    apply hw
    have h1 : c ∈ w.dropWhile isC0OrSpace := List.mem_of_mem_filter hc
    exact (List.dropWhile_sublist _).subset h1
  rcases hss : schemeSplit (removeUnsafe (w.dropWhile isC0OrSpace)) with _ | ⟨sr, r⟩
  · rw [urlsplitE_eq_none hss] at h
    have hss2 : schemeSplit (removeUnsafe ((takeUntil '?' w).dropWhile isC0OrSpace)) =
        none := by
      rw [hpre, schemeSplit_takeUntil, hss]
      rfl
    rw [urlsplitE_eq_none hss2, hpre]
    exact urlsplitAfterScheme_takeUntilQ hurl1 h
  · rw [urlsplitE_eq_some hss] at h
    have hss2 : schemeSplit (removeUnsafe ((takeUntil '?' w).dropWhile isC0OrSpace)) =
        some (sr, takeUntil '?' r) := by
      rw [hpre, schemeSplit_takeUntil, hss]
      rfl
    rw [urlsplitE_eq_some hss2]
    obtain ⟨hweq, _, _, _⟩ := schemeSplit_sound hss
    have hr : ∀ c ∈ r, c ≠ '#' := fun c hc =>
      hurl1 c (by rw [hweq]; exact List.mem_append.mpr (.inr (List.mem_cons_of_mem _ hc)))
    exact urlsplitAfterScheme_takeUntilQ hr h

theorem urlparseE_takeUntilQ {w ds : Str} {u : UrlParse} (hw : ∀ c ∈ w, c ≠ '#')
    (h : urlparseE w ds = .ok u) :
    urlparseE (takeUntil '?' w) ds = .ok ⟨u.scheme, u.netloc, u.path, u.params, [], []⟩ := by
  rcases hsp : urlsplitE w ds with s | e
  · rw [urlparseE_eq_ok hsp] at h
    injection h with h2
    have hsp2 := urlsplitE_takeUntilQ hw hsp
    rw [urlparseE_eq_ok hsp2]
    subst h2
    rfl
  · rw [urlparseE_eq_err hsp] at h
    exact PE.noConfusion h


/-! ### Parsing an assembled absolute URL -/

theorem urlsplitE_assembled {n pp : Str} (ds : Str) (c0 : Char) (t0 : Str)
    (hca : c0.isAlpha = true) (ht0 : ∀ c ∈ t0, isSchemeChar c = true)
    (hc0 : isC0OrSpace c0 = false)
    (hschclean : ∀ c ∈ c0 :: t0, isUnsafeChar c = false)
    (hlow : lowerStr (c0 :: t0) = c0 :: t0)
    (hnwf : ∀ c ∈ n, isNetlocEnd c = false ∧ isUnsafeChar c = false)
    (hbr : hasChar '[' n = hasChar ']' n)
    (hpp : ∀ c ∈ pp, c ≠ '#' ∧ c ≠ '?' ∧ isUnsafeChar c = false)
    (hpphead : pp = [] ∨ pp.take 1 = toL "/") :
    urlsplitE ((c0 :: t0) ++ ':' :: '/' :: '/' :: (n ++ pp)) ds =
      .ok ⟨c0 :: t0, n, pp, [], []⟩ := by
  have hdw : (((c0 :: t0) ++ ':' :: '/' :: '/' :: (n ++ pp)).dropWhile isC0OrSpace) =
      (c0 :: t0) ++ ':' :: '/' :: '/' :: (n ++ pp) := by
    simp only [List.cons_append, List.dropWhile_cons, hc0, Bool.false_eq_true, if_false]
  have hclean : ∀ c ∈ (c0 :: t0) ++ ':' :: '/' :: '/' :: (n ++ pp),
      (!isUnsafeChar c) = true := by
    intro c hc
    rcases List.mem_append.mp hc with hc1 | hc1
    · simpa using hschclean c hc1
    · rcases List.mem_cons.mp hc1 with rfl | hc2
      · decide
      · rcases List.mem_cons.mp hc2 with rfl | hc3
        · decide
        · rcases List.mem_cons.mp hc3 with rfl | hc4
          · decide
          · rcases List.mem_append.mp hc4 with hc5 | hc5
            · simpa using (hnwf c hc5).2
            · simpa using (hpp c hc5).2.2
  have hru : removeUnsafe ((c0 :: t0) ++ ':' :: '/' :: '/' :: (n ++ pp)) =
      (c0 :: t0) ++ ':' :: '/' :: '/' :: (n ++ pp) := List.filter_eq_self.mpr hclean
  have hss : schemeSplit (removeUnsafe
      ((((c0 :: t0) ++ ':' :: '/' :: '/' :: (n ++ pp))).dropWhile isC0OrSpace)) =
      some (c0 :: t0, '/' :: '/' :: (n ++ pp)) := by
    rw [hdw, hru]
    exact schemeSplit_complete hca ht0
  rw [urlsplitE_eq_some hss, hlow]
  have hpp2 : pp = [] ∨ ∃ t, pp = '/' :: t := by
    rcases hpphead with h | h
    · exact .inl h
    · cases pp with
      | nil => exact .inl rfl
      | cons c t =>
        right
        refine ⟨t, ?_⟩
        have h2 : c = '/' := by
          have h3 := congrArg (fun l => l.headD ' ') h
          simpa [toL] using h3
        rw [h2]
  have hnall : ∀ c ∈ n, (fun c => !isNetlocEnd c) c = true :=
    fun c hc => by simpa using (hnwf c hc).1
  unfold urlsplitAfterScheme
  rw [if_pos (show (('/' :: '/' :: (n ++ pp)).take 2) = toL "//" from rfl)]
  simp only [List.drop_succ_cons, List.drop_zero]
  have htk : (n ++ pp).takeWhile (fun c => !isNetlocEnd c) = n := by
    rw [takeWhile_append_all pp hnall]
    rcases hpp2 with h | ⟨t, h⟩
    · rw [h]
      simp
    · rw [h, List.takeWhile_cons]
      simp [isNetlocEnd]
  have hdr : (n ++ pp).dropWhile (fun c => !isNetlocEnd c) = pp := by
    rw [dropWhile_append_all pp hnall]
    rcases hpp2 with h | ⟨t, h⟩
    · rw [h]
      rfl
    · rw [h, List.dropWhile_cons]
      simp [isNetlocEnd]

  rw [htk, hdr, urlsplitNetloc_eq_ok hbr]
  rw [splitFragQuery_clean (fun c hc => (hpp c hc).1) (fun c hc => (hpp c hc).2.1)]

theorem urlsplitE_assembled_hs {sch n pp : Str} (ds : Str)
    (hsch : sch = toL "http" ∨ sch = toL "https")
    (hnwf : ∀ c ∈ n, isNetlocEnd c = false ∧ isUnsafeChar c = false)
    (hbr : hasChar '[' n = hasChar ']' n)
    (hpp : ∀ c ∈ pp, c ≠ '#' ∧ c ≠ '?' ∧ isUnsafeChar c = false)
    (hpphead : pp = [] ∨ pp.take 1 = toL "/") :
    urlsplitE (sch ++ ':' :: '/' :: '/' :: (n ++ pp)) ds = .ok ⟨sch, n, pp, [], []⟩ := by
  rcases hsch with h | h <;> subst h
  · rw [show toL "http" = 'h' :: toL "ttp" from rfl]
    exact urlsplitE_assembled ds 'h' (toL "ttp") (by decide) (by decide) (by decide)
      (by decide) (by decide) hnwf hbr hpp hpphead
  · rw [show toL "https" = 'h' :: toL "ttps" from rfl]
    exact urlsplitE_assembled ds 'h' (toL "ttps") (by decide) (by decide) (by decide)
      (by decide) (by decide) hnwf hbr hpp hpphead

theorem urlparseE_assembled {sch n pp : Str} (ds : Str)
    (hsch : sch = toL "http" ∨ sch = toL "https")
    (hnwf : ∀ c ∈ n, isNetlocEnd c = false ∧ isUnsafeChar c = false)
    (hbr : hasChar '[' n = hasChar ']' n)
    (hpp : ∀ c ∈ pp, c ≠ '#' ∧ c ≠ '?' ∧ isUnsafeChar c = false)
    (hpphead : pp = [] ∨ pp.take 1 = toL "/") :
    urlparseE (sch ++ ':' :: '/' :: '/' :: (n ++ pp)) ds =
      .ok ⟨sch, n,
        (if sch ∈ uses_params ∧ hasChar ';' pp then splitparamsPy pp else (pp, [])).1,
        (if sch ∈ uses_params ∧ hasChar ';' pp then splitparamsPy pp else (pp, [])).2,
        [], []⟩ := by
  rw [urlparseE_eq_ok (urlsplitE_assembled_hs ds hsch hnwf hbr hpp hpphead)]


/-! ### Reassembling an absolute URL is the identity -/

theorem urlunsplitS_assembled {sch n pp : Str} (hn : n ≠ []) (hsch_ne : sch ≠ [])
    (hpphead : pp = [] ∨ pp.take 1 = toL "/") :
    urlunsplitS sch n pp [] [] = sch ++ ':' :: '/' :: '/' :: (n ++ pp) := by
  unfold urlunsplitS
  dsimp only
  have hinner : ¬(pp ≠ [] ∧ pp.take 1 ≠ toL "/") := by
    rcases hpphead with h | h
    · exact fun hc => hc.1 h
    · exact fun hc => hc.2 h
  rw [if_neg (fun h => h rfl), if_neg (fun h => h rfl), if_pos (Or.inl hn),
    if_neg hinner, if_pos hsch_ne]
  rw [show toL "//" = ['/', '/'] from rfl]
  simp

theorem lastSlashSplit_slash_cons (p : Str) :
    (lastSlashSplit ('/' :: p)).2 = (lastSlashSplit p).2 := by
  rw [lastSlashSplit_cons]
  by_cases h : hasChar '/' p = true
  · rw [if_pos h]
  · have h2 : hasChar '/' p = false := by
      cases hh : hasChar '/' p
      · rfl
      · exact absurd hh h
    rw [if_neg (by rw [h2]; simp), if_pos rfl, lastSlashSplit_noslash h2]

theorem reassembleA {p : Str} (h2 : hasChar ';' (lastSlashSplit p).2 = false) :
    (if (splitparamsPy p).2 ≠ []
     then (splitparamsPy p).1 ++ ';' :: (splitparamsPy p).2
     else (splitparamsPy p).1) = p := by
  rw [splitparamsPy_self h2]
  simp

theorem reassembleB {p prm : Str} (hne : prm ≠ [])
    (h1 : hasChar '/' prm = false)
    (h2 : hasChar ';' (lastSlashSplit p).2 = false) :
    (if (splitparamsPy (p ++ ';' :: prm)).2 ≠ []
     then (splitparamsPy (p ++ ';' :: prm)).1 ++ ';' :: (splitparamsPy (p ++ ';' :: prm)).2
     else (splitparamsPy (p ++ ';' :: prm)).1) = p ++ ';' :: prm := by
  rw [splitparamsPy_reassemble h1 h2]
  simp [hne]

theorem urljoinE_assembled {base : Str} {pb : UrlParse} {sch n pp : Str}
    (hb : urlparseE base [] = .ok pb) (hbsch : pb.scheme = sch)
    (hsch : sch = toL "http" ∨ sch = toL "https")
    (hn : n ≠ [])
    (hnwf : ∀ c ∈ n, isNetlocEnd c = false ∧ isUnsafeChar c = false)
    (hbr : hasChar '[' n = hasChar ']' n)
    (hpp : ∀ c ∈ pp, c ≠ '#' ∧ c ≠ '?' ∧ isUnsafeChar c = false)
    (hpphead : pp = [] ∨ pp.take 1 = toL "/")
    (hre : (if (splitparamsPy pp).2 ≠ []
        then (splitparamsPy pp).1 ++ ';' :: (splitparamsPy pp).2
        else (splitparamsPy pp).1) = pp) :
    urljoinE base (sch ++ ':' :: '/' :: '/' :: (n ++ pp)) =
      .ok (sch ++ ':' :: '/' :: '/' :: (n ++ pp)) := by
  have hsch_ne : sch ≠ [] := by
    rcases hsch with h | h <;> subst h <;> decide
  have hrel : sch ∈ uses_relative := by
    rcases hsch with h | h <;> subst h <;> decide
  have hunet : sch ∈ uses_netloc := by
    rcases hsch with h | h <;> subst h <;> decide
  have hcne : sch ++ ':' :: '/' :: '/' :: (n ++ pp) ≠ [] := by
    intro he
    have h2 := List.append_eq_nil.mp he
    exact hsch_ne h2.1
  unfold urljoinE
  by_cases hbase : base = []
  · rw [if_pos hbase]
  · rw [if_neg hbase, if_neg hcne, hb]
    dsimp only
    rw [urlparseE_assembled pb.scheme hsch hnwf hbr hpp hpphead]
    dsimp only
    rw [if_neg (not_or.mpr ⟨not_not_intro hbsch.symm, not_not_intro hrel⟩)]
    rw [if_pos (⟨hunet, hn⟩ : sch ∈ uses_netloc ∧ n ≠ [])]
    unfold urlunparseS
    by_cases hc : sch ∈ uses_params ∧ hasChar ';' pp
    · rw [if_pos hc]
      simp only [List.append_assoc, List.singleton_append]
      rw [hre, urlunsplitS_assembled hn hsch_ne hpphead]
    · rw [if_neg hc]
      dsimp only
      rw [if_neg (fun h => h rfl), urlunsplitS_assembled hn hsch_ne hpphead]


/-! ### Stability of assembled URLs under `normalize` -/

theorem urlunsplitS_takeUntilQ {sch n pp q : Str} (hn : n ≠ []) (hsch_ne : sch ≠ [])
    (hschq : ∀ c ∈ sch, c ≠ '?') (hnq : ∀ c ∈ n, c ≠ '?') (hppq : ∀ c ∈ pp, c ≠ '?') :
    takeUntil '?' (urlunsplitS sch n pp q []) =
      sch ++ ':' :: '/' :: '/' ::
        (n ++ (if pp ≠ [] ∧ pp.take 1 ≠ toL "/" then '/' :: pp else pp)) := by
  unfold urlunsplitS
  dsimp only
  rw [if_neg (fun h => h rfl), if_pos (Or.inl hn), if_pos hsch_ne]
  generalize hpf : (if pp ≠ [] ∧ pp.take 1 ≠ toL "/" then '/' :: pp else pp) = pfix
  have hpfq : ∀ c ∈ pfix, c ≠ '?' := by
    rw [← hpf]
    by_cases h : pp ≠ [] ∧ pp.take 1 ≠ toL "/"
    · rw [if_pos h]
      intro c hc
      rcases List.mem_cons.mp hc with rfl | hc2
      · decide
      · exact hppq c hc2
    · rw [if_neg h]
      exact hppq
  have hAq : ∀ c ∈ sch ++ ':' :: '/' :: '/' :: (n ++ pfix), c ≠ '?' := by
    intro c hc
    rcases List.mem_append.mp hc with h1 | h1
    · exact hschq c h1
    · rcases List.mem_cons.mp h1 with rfl | h2
      · decide
      · rcases List.mem_cons.mp h2 with rfl | h3
        · decide
        · rcases List.mem_cons.mp h3 with rfl | h4
          · decide
          · rcases List.mem_append.mp h4 with h5 | h5
            · exact hnq c h5
            · exact hpfq c h5
  by_cases hq : q ≠ []
  · rw [if_pos hq]
    have hEq : sch ++ [':'] ++ (toL "//" ++ n ++ pfix) ++ ['?'] ++ q =
        (sch ++ ':' :: '/' :: '/' :: (n ++ pfix)) ++ '?' :: q := by
      rw [show toL "//" = ['/', '/'] from rfl]
      simp
    rw [hEq, takeUntil_append_cons q hAq]
  · rw [if_neg hq]
    have hEq : sch ++ [':'] ++ (toL "//" ++ n ++ pfix) =
        sch ++ ':' :: '/' :: '/' :: (n ++ pfix) := by
      rw [show toL "//" = ['/', '/'] from rfl]
      simp
    rw [hEq, takeUntil_eq_self hAq]

theorem normalizeE_assembled_core {base : Str} {pb : UrlParse} {sch n pf : Str}
    (hb : urlparseE base [] = .ok pb) (hbsch : pb.scheme = sch)
    (hsch : sch = toL "http" ∨ sch = toL "https")
    (hn : n ≠ [])
    (hnwf : ∀ c ∈ n, isNetlocEnd c = false ∧ isUnsafeChar c = false)
    (hbr : hasChar '[' n = hasChar ']' n)
    (hpf : ∀ c ∈ pf, c ≠ '#' ∧ c ≠ '?' ∧ isUnsafeChar c = false)
    (hpfhead : pf = [] ∨ pf.take 1 = toL "/")
    (hre : (if (splitparamsPy pf).2 ≠ []
        then (splitparamsPy pf).1 ++ ';' :: (splitparamsPy pf).2
        else (splitparamsPy pf).1) = pf) :
    normalizeE base (sch ++ ':' :: '/' :: '/' :: (n ++ pf)) =
      .ok (sch ++ ':' :: '/' :: '/' :: (n ++ pf)) := by
  have hsh : ∀ c ∈ sch, c ≠ '#' := by
    rcases hsch with h | h <;> subst h <;> decide
  have hsq : ∀ c ∈ sch, c ≠ '?' := by
    rcases hsch with h | h <;> subst h <;> decide
  have hnoH : ∀ c ∈ sch ++ ':' :: '/' :: '/' :: (n ++ pf), c ≠ '#' := by
    intro c hc
    rcases List.mem_append.mp hc with h1 | h1
    · exact hsh c h1
    · rcases List.mem_cons.mp h1 with rfl | h2
      · decide
      · rcases List.mem_cons.mp h2 with rfl | h3
        · decide
        · rcases List.mem_cons.mp h3 with rfl | h4
          · decide
          · rcases List.mem_append.mp h4 with h5 | h5
            · intro he
              have h6 := (hnwf c h5).1
              rw [he] at h6
              exact absurd h6 (by decide)
            · exact (hpf c h5).1
  have hnoQ : ∀ c ∈ sch ++ ':' :: '/' :: '/' :: (n ++ pf), c ≠ '?' := by
    intro c hc
    rcases List.mem_append.mp hc with h1 | h1
    · exact hsq c h1
    · rcases List.mem_cons.mp h1 with rfl | h2
      · decide
      · rcases List.mem_cons.mp h2 with rfl | h3
        · decide
        · rcases List.mem_cons.mp h3 with rfl | h4
          · decide
          · rcases List.mem_append.mp h4 with h5 | h5
            · intro he
              have h6 := (hnwf c h5).1
              rw [he] at h6
              exact absurd h6 (by decide)
            · exact (hpf c h5).2.1
  unfold normalizeE
  rw [takeUntil_eq_self hnoH,
    urljoinE_assembled hb hbsch hsch hn hnwf hbr hpf hpfhead hre]
  dsimp only
  rw [takeUntil_eq_self hnoQ]

theorem assembled_stable {base : Str} {pb : UrlParse} {sch n p prm q : Str}
    (hb : urlparseE base [] = .ok pb) (hbsch : pb.scheme = sch)
    (hsch : sch = toL "http" ∨ sch = toL "https")
    (hn : n ≠ [])
    (hnwf : ∀ c ∈ n, isNetlocEnd c = false ∧ isUnsafeChar c = false)
    (hbr : hasChar '[' n = hasChar ']' n)
    (hp : ∀ c ∈ p, c ≠ '#' ∧ c ≠ '?' ∧ isUnsafeChar c = false)
    (hprm : ∀ c ∈ prm, c ≠ '#' ∧ c ≠ '?' ∧ isUnsafeChar c = false)
    (hok1 : hasChar '/' prm = false)
    (hok2 : hasChar ';' (lastSlashSplit p).2 = false) :
    normalizeE base (takeUntil '?' (urlunparseS sch n p prm q [])) =
      .ok (takeUntil '?' (urlunparseS sch n p prm q [])) := by
  have hsch_ne : sch ≠ [] := by
    rcases hsch with h | h <;> subst h <;> decide
  have hsq : ∀ c ∈ sch, c ≠ '?' := by
    rcases hsch with h | h <;> subst h <;> decide
  have hnq : ∀ c ∈ n, c ≠ '?' := by
    intro c hc he
    have h6 := (hnwf c hc).1
    rw [he] at h6
    exact absurd h6 (by decide)
  have hok2' : hasChar ';' (lastSlashSplit ('/' :: p)).2 = false := by
    rw [lastSlashSplit_slash_cons]
    exact hok2
  unfold urlunparseS
  have hpptq : ∀ c ∈ (if prm ≠ [] then p ++ [';'] ++ prm else p), c ≠ '?' := by
    by_cases h : prm ≠ []
    · rw [if_pos h]
      intro c hc
      rcases List.mem_append.mp hc with h1 | h1
      · rcases List.mem_append.mp h1 with h2 | h2
        · exact (hp c h2).2.1
        · rw [List.mem_singleton] at h2
          subst h2
          decide
      · exact (hprm c h1).2.1
    · rw [if_neg h]
      intro c hc
      exact (hp c hc).2.1
  rw [urlunsplitS_takeUntilQ hn hsch_ne hsq hnq hpptq]
  by_cases hprm0 : prm = []
  · subst hprm0
    rw [show (if ([] : Str) ≠ [] then p ++ [';'] ++ [] else p) = p from if_neg (fun h => h rfl)]
    have hpf1 : ∀ c ∈ '/' :: p, c ≠ '#' ∧ c ≠ '?' ∧ isUnsafeChar c = false := by
      intro c hc
      rcases List.mem_cons.mp hc with rfl | h2
      · exact ⟨by decide, by decide, by decide⟩
      · exact hp c h2
    by_cases hhead : p ≠ [] ∧ p.take 1 ≠ toL "/"
    · rw [if_pos hhead]
      exact normalizeE_assembled_core hb hbsch hsch hn hnwf hbr hpf1
        (.inr rfl) (reassembleA hok2')
    · rw [if_neg hhead]
      have hpfhead : p = [] ∨ p.take 1 = toL "/" := by
        by_cases h0 : p = []
        · exact .inl h0
        · by_cases h2 : p.take 1 = toL "/"
          · exact .inr h2
          · exact absurd ⟨h0, h2⟩ hhead
      exact normalizeE_assembled_core hb hbsch hsch hn hnwf hbr hp
        hpfhead (reassembleA hok2)
  · rw [if_pos hprm0]
    simp only [List.append_assoc, List.singleton_append]
    have hne2 : p ++ ';' :: prm ≠ [] := by simp
    have hpf3 : ∀ c ∈ p ++ ';' :: prm, c ≠ '#' ∧ c ≠ '?' ∧ isUnsafeChar c = false := by
      intro c hc
      rcases List.mem_append.mp hc with h1 | h1
      · exact hp c h1
      · rcases List.mem_cons.mp h1 with rfl | h2
        · exact ⟨by decide, by decide, by decide⟩
        · exact hprm c h2
    by_cases hhead : p ++ ';' :: prm ≠ [] ∧ (p ++ ';' :: prm).take 1 ≠ toL "/"
    · rw [if_pos hhead]
      have hpf2 : ∀ c ∈ ('/' :: p) ++ ';' :: prm,
          c ≠ '#' ∧ c ≠ '?' ∧ isUnsafeChar c = false := by
        intro c hc
        rcases List.mem_append.mp hc with h1 | h1
        · rcases List.mem_cons.mp h1 with rfl | h2
          · exact ⟨by decide, by decide, by decide⟩
          · exact hp c h2
        · rcases List.mem_cons.mp h1 with rfl | h2
          · exact ⟨by decide, by decide, by decide⟩
          · exact hprm c h2
      rw [show '/' :: (p ++ ';' :: prm) = ('/' :: p) ++ ';' :: prm from rfl]
      exact normalizeE_assembled_core hb hbsch hsch hn hnwf hbr hpf2
        (.inr rfl) (reassembleB hprm0 hok1 hok2')
    · rw [if_neg hhead]
      have htk : (p ++ ';' :: prm).take 1 = toL "/" := by
        by_cases h2 : (p ++ ';' :: prm).take 1 = toL "/"
        · exact h2
        · exact absurd ⟨hne2, h2⟩ hhead
      exact normalizeE_assembled_core hb hbsch hsch hn hnwf hbr hpf3
        (.inr htk) (reassembleB hprm0 hok1 hok2)


/-! ### Segment resolution machinery of `urljoin` -/

theorem getLastD_ne_nil {α : Type} {l : List α} (h : l ≠ []) (d1 d2 : α) :
    l.getLastD d1 = l.getLastD d2 := by
  cases l with
  | nil => exact absurd rfl h
  | cons a t => rw [List.getLastD_cons, List.getLastD_cons]

theorem getLastD_concat {α : Type} (d a : α) (l : List α) :
    (l ++ [a]).getLastD d = a := by
  induction l with
  | nil => rfl
  | cons x xs ih =>
    rw [List.cons_append, List.getLastD_cons]
    rw [getLastD_ne_nil (by simp) x d, ih]

theorem getLastD_append_right {α : Type} (a : List α) {b : List α} (hb : b ≠ []) (d : α) :
    (a ++ b).getLastD d = b.getLastD d := by
  induction a with
  | nil => rfl
  | cons x a2 ih =>
    rw [List.cons_append, List.getLastD_cons,
      getLastD_ne_nil (fun he => hb (List.append_eq_nil.mp he).2) x d, ih]

theorem splitSlash_cons (c : Char) (cs : Str) :
    splitSlash (c :: cs) =
      if c = '/' then [] :: splitSlash cs
      else match splitSlash cs with
      | [] => [[c]]
      | h :: t => (c :: h) :: t := rfl

theorem splitSlash_ne_nil (l : Str) : splitSlash l ≠ [] := by
  cases l with
  | nil => exact fun h => List.noConfusion h
  | cons c cs =>
    rw [splitSlash_cons]
    by_cases hc : c = '/'
    · rw [if_pos hc]
      exact fun h => List.noConfusion h
    · rw [if_neg hc]
      cases h2 : splitSlash cs with
      | nil => exact fun h => List.noConfusion h
      | cons a t => exact fun h => List.noConfusion h

theorem splitSlash_elem_noslash (l : Str) : ∀ s ∈ splitSlash l, hasChar '/' s = false := by
  induction l with
  | nil =>
    intro s hs
    rw [show splitSlash [] = [[]] from rfl, List.mem_singleton] at hs
    subst hs
    rfl
  | cons c cs ih =>
    intro s hs
    rw [splitSlash_cons] at hs
    by_cases hc : c = '/'
    · rw [if_pos hc] at hs
      rcases List.mem_cons.mp hs with rfl | h2
      · rfl
      · exact ih s h2
    · rw [if_neg hc] at hs
      cases h2 : splitSlash cs with
      | nil => exact absurd h2 (splitSlash_ne_nil cs)
      | cons a t =>
        rw [h2] at hs
        rcases List.mem_cons.mp hs with rfl | h3
        · rw [hasChar_cons, ih a (by rw [h2]; exact List.mem_cons_self a t)]
          simp [hc]
        · exact ih s (by rw [h2]; exact List.mem_cons_of_mem a h3)

theorem splitSlash_chars (l : Str) : ∀ s ∈ splitSlash l, ∀ c ∈ s, c ∈ l := by
  induction l with
  | nil =>
    intro s hs c hc
    rw [show splitSlash [] = [[]] from rfl, List.mem_singleton] at hs
    subst hs
    exact absurd hc (List.not_mem_nil c)
  | cons c0 cs ih =>
    intro s hs c hc
    rw [splitSlash_cons] at hs
    by_cases hc0 : c0 = '/'
    · rw [if_pos hc0] at hs
      rcases List.mem_cons.mp hs with rfl | h2
      · exact absurd hc (List.not_mem_nil c)
      · exact List.mem_cons_of_mem c0 (ih s h2 c hc)
    · rw [if_neg hc0] at hs
      cases h2 : splitSlash cs with
      | nil => exact absurd h2 (splitSlash_ne_nil cs)
      | cons a t =>
        rw [h2] at hs
        rcases List.mem_cons.mp hs with rfl | h3
        · rcases List.mem_cons.mp hc with h4 | h4
          · rw [h4]
            exact List.mem_cons_self _ _
          · exact List.mem_cons_of_mem c0
              (ih a (by rw [h2]; exact List.mem_cons_self a t) c h4)
        · exact List.mem_cons_of_mem c0
            (ih s (by rw [h2]; exact List.mem_cons_of_mem a h3) c hc)

theorem splitSlash_singleton {cs a : Str} (h : splitSlash cs = [a]) :
    hasChar '/' cs = false ∧ a = cs := by
  induction cs generalizing a with
  | nil =>
    rw [show splitSlash [] = [[]] from rfl] at h
    injection h with h1 h2
    exact ⟨rfl, h1.symm⟩
  | cons c cs2 ih =>
    rw [splitSlash_cons] at h
    by_cases hc : c = '/'
    · rw [if_pos hc] at h
      injection h with h1 h2
      exact absurd h2 (splitSlash_ne_nil cs2)
    · rw [if_neg hc] at h
      cases h2 : splitSlash cs2 with
      | nil => exact absurd h2 (splitSlash_ne_nil cs2)
      | cons b t =>
        rw [h2] at h
        injection h with h3 h4
        subst h4
        obtain ⟨hns, hb⟩ := ih h2
        subst hb
        constructor
        · rw [hasChar_cons, hns]
          simp [hc]
        · rw [← h3]

theorem splitSlash_noslash {cs : Str} (h : hasChar '/' cs = false) :
    splitSlash cs = [cs] := by
  induction cs with
  | nil => rfl
  | cons c cs2 ih =>
    rw [hasChar_cons] at h
    have hc : ¬ c = '/' := by
      intro he
      rw [he] at h
      simp at h
    have h2 : hasChar '/' cs2 = false := by
      cases hh : hasChar '/' cs2
      · rfl
      · rw [hh] at h
        simp at h
    rw [splitSlash_cons, if_neg hc, ih h2]

theorem splitSlash_getLastD (l : Str) :
    (splitSlash l).getLastD [] = (lastSlashSplit l).2 := by
  induction l with
  | nil => rfl
  | cons c cs ih =>
    by_cases hc : c = '/'
    · rw [splitSlash_cons, lastSlashSplit_cons, if_pos hc]
      by_cases hcs : hasChar '/' cs = true
      · rw [if_pos hcs]
        dsimp only
        rw [List.getLastD_cons, ih]
      · have hcs2 : hasChar '/' cs = false := by
          cases hh : hasChar '/' cs
          · rfl
          · exact absurd hh hcs
        rw [if_neg (by rw [hcs2]; simp), if_pos hc]
        dsimp only
        rw [List.getLastD_cons, ih, lastSlashSplit_noslash hcs2]
    · rw [splitSlash_cons, lastSlashSplit_cons, if_neg hc]
      by_cases hcs : hasChar '/' cs = true
      · rw [if_pos hcs]
        cases h2 : splitSlash cs with
        | nil => exact absurd h2 (splitSlash_ne_nil cs)
        | cons a t =>
          dsimp only
          cases t with
          | nil =>
            obtain ⟨hns, _⟩ := splitSlash_singleton h2
            rw [hns] at hcs
            exact Bool.noConfusion hcs
          | cons x t2 =>
            rw [List.getLastD_cons]
            have ih2 := ih
            rw [h2, List.getLastD_cons] at ih2
            rw [getLastD_ne_nil (List.cons_ne_nil x t2) (c :: a) a, ih2]
      · have hcs2 : hasChar '/' cs = false := by
          cases hh : hasChar '/' cs
          · rfl
          · exact absurd hh hcs
        rw [if_neg (by rw [hcs2]; simp), if_neg hc, splitSlash_noslash hcs2]
        rfl

theorem filterMiddleAux_cons2 (b x : Str) (xs : List Str) :
    filterMiddleAux (b :: x :: xs) =
      if b = [] then filterMiddleAux (x :: xs) else b :: filterMiddleAux (x :: xs) := rfl

theorem filterMiddleAux_ne_nil {L : List Str} (h : L ≠ []) : filterMiddleAux L ≠ [] := by
  induction L with
  | nil => exact absurd rfl h
  | cons b bs ih =>
    cases bs with
    | nil => exact List.cons_ne_nil b []
    | cons x xs =>
      rw [filterMiddleAux_cons2]
      by_cases hb : b = []
      · rw [if_pos hb]
        exact ih (List.cons_ne_nil x xs)
      · rw [if_neg hb]
        exact List.cons_ne_nil _ _

theorem filterMiddleAux_subset {L : List Str} : ∀ s ∈ filterMiddleAux L, s ∈ L := by
  induction L with
  | nil =>
    intro s hs
    exact absurd hs (List.not_mem_nil s)
  | cons b bs ih =>
    intro s hs
    cases bs with
    | nil => exact hs
    | cons x xs =>
      rw [filterMiddleAux_cons2] at hs
      by_cases hb : b = []
      · rw [if_pos hb] at hs
        exact List.mem_cons_of_mem b (ih s hs)
      · rw [if_neg hb] at hs
        rcases List.mem_cons.mp hs with rfl | h2
        · exact List.mem_cons_self _ _
        · exact List.mem_cons_of_mem b (ih s h2)

theorem filterMiddleAux_getLastD {L : List Str} (h : L ≠ []) (d : Str) :
    (filterMiddleAux L).getLastD d = L.getLastD d := by
  induction L with
  | nil => exact absurd rfl h
  | cons b bs ih =>
    cases bs with
    | nil => rfl
    | cons x xs =>
      rw [filterMiddleAux_cons2]
      by_cases hb : b = []
      · rw [if_pos hb, ih (List.cons_ne_nil x xs), List.getLastD_cons, hb]
        simp only [List.getLastD_cons]
      · rw [if_neg hb, List.getLastD_cons,
          getLastD_ne_nil (filterMiddleAux_ne_nil (List.cons_ne_nil x xs)) b d,
          ih (List.cons_ne_nil x xs)]
        simp only [List.getLastD_cons]

theorem filterMiddle_cons2 (a x : Str) (xs : List Str) :
    filterMiddle (a :: x :: xs) = a :: filterMiddleAux (x :: xs) := rfl

theorem filterMiddle_ne_nil {L : List Str} (h : L ≠ []) : filterMiddle L ≠ [] := by
  cases L with
  | nil => exact absurd rfl h
  | cons a rest =>
    cases rest with
    | nil => exact List.cons_ne_nil a []
    | cons x xs =>
      rw [filterMiddle_cons2]
      exact List.cons_ne_nil _ _

theorem filterMiddle_subset {L : List Str} : ∀ s ∈ filterMiddle L, s ∈ L := by
  cases L with
  | nil =>
    intro s hs
    exact absurd hs (List.not_mem_nil s)
  | cons a rest =>
    cases rest with
    | nil =>
      intro s hs
      exact hs
    | cons x xs =>
      intro s hs
      rw [filterMiddle_cons2] at hs
      rcases List.mem_cons.mp hs with rfl | h2
      · exact List.mem_cons_self _ _
      · exact List.mem_cons_of_mem a (filterMiddleAux_subset s h2)

theorem filterMiddle_getLastD {L : List Str} (h : L ≠ []) (d : Str) :
    (filterMiddle L).getLastD d = L.getLastD d := by
  cases L with
  | nil => exact absurd rfl h
  | cons a rest =>
    cases rest with
    | nil => rfl
    | cons x xs =>
      rw [filterMiddle_cons2, List.getLastD_cons,
        getLastD_ne_nil (filterMiddleAux_ne_nil (List.cons_ne_nil x xs)) a d,
        filterMiddleAux_getLastD (List.cons_ne_nil x xs) d]
      simp only [List.getLastD_cons]

theorem resolveSegs_cons (acc : List Str) (s : Str) (ss : List Str) :
    resolveSegs acc (s :: ss) =
      if s = toL ".." then resolveSegs acc.dropLast ss
      else if s = toL "." then resolveSegs acc ss
      else resolveSegs (acc ++ [s]) ss := rfl

theorem resolveSegs_append (acc : List Str) (l1 l2 : List Str) :
    resolveSegs acc (l1 ++ l2) = resolveSegs (resolveSegs acc l1) l2 := by
  induction l1 generalizing acc with
  | nil => rfl
  | cons s ss ih =>
    rw [List.cons_append, resolveSegs_cons, resolveSegs_cons]
    by_cases h1 : s = toL ".."
    · rw [if_pos h1, if_pos h1, ih]
    · rw [if_neg h1, if_neg h1]
      by_cases h2 : s = toL "."
      · rw [if_pos h2, if_pos h2, ih]
      · rw [if_neg h2, if_neg h2, ih]

theorem resolveSegs_subset (acc L : List Str) :
    ∀ s ∈ resolveSegs acc L, s ∈ acc ∨ s ∈ L := by
  induction L generalizing acc with
  | nil =>
    intro s hs
    exact .inl hs
  | cons x xs ih =>
    intro s hs
    rw [resolveSegs_cons] at hs
    by_cases h1 : x = toL ".."
    · rw [if_pos h1] at hs
      rcases ih acc.dropLast s hs with h | h
      · exact .inl (List.dropLast_subset acc h)
      · exact .inr (List.mem_cons_of_mem x h)
    · rw [if_neg h1] at hs
      by_cases h2 : x = toL "."
      · rw [if_pos h2] at hs
        rcases ih acc s hs with h | h
        · exact .inl h
        · exact .inr (List.mem_cons_of_mem x h)
      · rw [if_neg h2] at hs
        rcases ih (acc ++ [x]) s hs with h | h
        · rcases List.mem_append.mp h with h3 | h3
          · exact .inl h3
          · rw [List.mem_singleton] at h3
            subst h3
            exact .inr (List.mem_cons_self _ _)
        · exact .inr (List.mem_cons_of_mem x h)

theorem resolveSegs_concat_normal (acc : List Str) {s : Str}
    (h1 : s ≠ toL "..") (h2 : s ≠ toL ".") (L : List Str) :
    resolveSegs acc (L ++ [s]) = resolveSegs acc L ++ [s] := by
  rw [resolveSegs_append, resolveSegs_cons, if_neg h1, if_neg h2]
  rfl

theorem joinSlash_cons2 (x y : Str) (ys : List Str) :
    joinSlash (x :: y :: ys) = x ++ '/' :: joinSlash (y :: ys) := rfl

theorem joinSlash_chars (L : List Str) :
    ∀ c ∈ joinSlash L, (∃ s ∈ L, c ∈ s) ∨ c = '/' := by
  induction L with
  | nil =>
    intro c hc
    exact absurd hc (List.not_mem_nil c)
  | cons x xs ih =>
    intro c hc
    cases xs with
    | nil => exact .inl ⟨x, List.mem_cons_self _ _, hc⟩
    | cons y ys =>
      rw [joinSlash_cons2] at hc
      rcases List.mem_append.mp hc with h1 | h1
      · exact .inl ⟨x, List.mem_cons_self _ _, h1⟩
      · rcases List.mem_cons.mp h1 with rfl | h2
        · exact .inr rfl
        · rcases ih c h2 with ⟨s, hs, hcs⟩ | h3
          · exact .inl ⟨s, List.mem_cons_of_mem x hs, hcs⟩
          · exact .inr h3

theorem lastSlashSplit_append_withslash {b : Str} (a : Str) (hb : hasChar '/' b = true) :
    (lastSlashSplit (a ++ b)).2 = (lastSlashSplit b).2 := by
  induction a with
  | nil => rfl
  | cons c a2 ih =>
    rw [List.cons_append, lastSlashSplit_cons]
    have hm : hasChar '/' (a2 ++ b) = true := by
      unfold hasChar at hb ⊢
      rw [List.any_eq_true] at hb ⊢
      obtain ⟨x, hx, hpx⟩ := hb
      exact ⟨x, List.mem_append.mpr (.inr hx), hpx⟩
    rw [if_pos hm]
    exact ih

theorem joinSlash_lastSlash {L : List Str} (hns : ∀ s ∈ L, hasChar '/' s = false)
    (hne : L ≠ []) : (lastSlashSplit (joinSlash L)).2 = L.getLastD [] := by
  induction L with
  | nil => exact absurd rfl hne
  | cons x xs ih =>
    cases xs with
    | nil =>
      rw [show joinSlash [x] = x from rfl,
        lastSlashSplit_noslash (hns x (List.mem_cons_self _ _))]
      rfl
    | cons y ys =>
      rw [joinSlash_cons2]
      have hj : hasChar '/' ('/' :: joinSlash (y :: ys)) = true := by
        rw [hasChar_cons]
        simp
      rw [lastSlashSplit_append_withslash x hj, lastSlashSplit_slash_cons,
        ih (fun s hs => hns s (List.mem_cons_of_mem x hs)) (List.cons_ne_nil y ys)]
      simp only [List.getLastD_cons]

theorem joinSlash_clean {R : List Str}
    (hchars : ∀ s ∈ R, ∀ c ∈ s, c ≠ '#' ∧ c ≠ '?' ∧ isUnsafeChar c = false) :
    ∀ c ∈ joinSlash R, c ≠ '#' ∧ c ≠ '?' ∧ isUnsafeChar c = false := by
  intro c hc
  rcases joinSlash_chars R c hc with ⟨s, hs, hcs⟩ | rfl
  · exact hchars s hs c hcs
  · exact ⟨by decide, by decide, by decide⟩


/-! ### Facts about the resolved path of `urljoin` -/

theorem urlsplitAfterScheme_scheme {sch r : Str} {s : UrlSplit}
    (h : urlsplitAfterScheme sch r = .ok s) : s.scheme = sch := by
  unfold urlsplitAfterScheme at h
  by_cases ht : r.take 2 = toL "//"
  · rw [if_pos ht] at h
    obtain ⟨_, hs⟩ := urlsplitNetloc_ok h
    rw [hs]
  · rw [if_neg ht] at h
    obtain ⟨_, hs⟩ := urlsplitNetloc_ok h
    rw [hs]

theorem urlparse_scheme_of_none {w ds : Str} {u : UrlParse}
    (hss : schemeSplit (removeUnsafe (w.dropWhile isC0OrSpace)) = none)
    (h : urlparseE w ds = .ok u) : u.scheme = removeUnsafe (stripC0Space ds) := by
  rcases hsp : urlsplitE w ds with s | e
  · rw [urlparseE_eq_ok hsp] at h
    injection h with h2
    subst h2
    rw [urlsplitE_eq_none hss] at hsp
    exact urlsplitAfterScheme_scheme hsp
  · rw [urlparseE_eq_err hsp] at h
    exact PE.noConfusion h

theorem joined_facts {segments R2 : List Str} {j : Str} (hne : segments ≠ [])
    (hnoslash : ∀ s ∈ segments, hasChar '/' s = false)
    (hchars : ∀ s ∈ segments, ∀ c ∈ s, c ≠ '#' ∧ c ≠ '?' ∧ isUnsafeChar c = false)
    (hlast : hasChar ';' (segments.getLastD []) = false)
    (hR2 : R2 = if segments.getLastD [] = toL ".." ∨ segments.getLastD [] = toL "."
        then resolveSegs [] segments ++ [[]] else resolveSegs [] segments)
    (hj : j = if joinSlash R2 = [] then toL "/" else joinSlash R2) :
    (∀ c ∈ j, c ≠ '#' ∧ c ≠ '?' ∧ isUnsafeChar c = false) ∧
    hasChar ';' (lastSlashSplit j).2 = false := by
  subst hR2
  subst hj
  by_cases hdots : segments.getLastD [] = toL ".." ∨ segments.getLastD [] = toL "."
  · rw [if_pos hdots]
    have hRchars : ∀ s ∈ resolveSegs [] segments ++ [[]], ∀ c ∈ s,
        c ≠ '#' ∧ c ≠ '?' ∧ isUnsafeChar c = false := by
      intro s hs c hc
      rcases List.mem_append.mp hs with h1 | h1
      · rcases resolveSegs_subset [] segments s h1 with h2 | h2
        · exact absurd h2 (List.not_mem_nil s)
        · exact hchars s h2 c hc
      · rw [List.mem_singleton] at h1
        subst h1
        exact absurd hc (List.not_mem_nil c)
    have hRnoslash : ∀ s ∈ resolveSegs [] segments ++ [[]], hasChar '/' s = false := by
      intro s hs
      rcases List.mem_append.mp hs with h1 | h1
      · rcases resolveSegs_subset [] segments s h1 with h2 | h2
        · exact absurd h2 (List.not_mem_nil s)
        · exact hnoslash s h2
      · rw [List.mem_singleton] at h1
        subst h1
        rfl
    by_cases hjn : joinSlash (resolveSegs [] segments ++ [[]]) = []
    · rw [if_pos hjn]
      exact ⟨by decide, by decide⟩
    · rw [if_neg hjn]
      refine ⟨joinSlash_clean hRchars, ?_⟩
      rw [joinSlash_lastSlash hRnoslash (by simp), getLastD_concat]
      rfl
  · rw [if_neg hdots]
    obtain ⟨L, sl, hseg⟩ : ∃ L s2, segments = L ++ [s2] :=
      ⟨segments.dropLast, segments.getLast hne, (List.dropLast_append_getLast hne).symm⟩
    subst hseg
    rw [getLastD_concat] at hdots hlast
    have hs1 : sl ≠ toL ".." := fun he => hdots (.inl he)
    have hs2 : sl ≠ toL "." := fun he => hdots (.inr he)
    rw [resolveSegs_concat_normal [] hs1 hs2 L]
    have hRchars : ∀ s ∈ resolveSegs [] L ++ [sl], ∀ c ∈ s,
        c ≠ '#' ∧ c ≠ '?' ∧ isUnsafeChar c = false := by
      intro s hs c hc
      rcases List.mem_append.mp hs with h1 | h1
      · rcases resolveSegs_subset [] L s h1 with h2 | h2
        · exact absurd h2 (List.not_mem_nil s)
        · exact hchars s (List.mem_append.mpr (.inl h2)) c hc
      · rw [List.mem_singleton] at h1
        subst h1
        exact hchars s (List.mem_append.mpr (.inr (List.mem_singleton.mpr rfl))) c hc
    have hRnoslash : ∀ s ∈ resolveSegs [] L ++ [sl], hasChar '/' s = false := by
      intro s hs
      rcases List.mem_append.mp hs with h1 | h1
      · rcases resolveSegs_subset [] L s h1 with h2 | h2
        · exact absurd h2 (List.not_mem_nil s)
        · exact hnoslash s (List.mem_append.mpr (.inl h2))
      · rw [List.mem_singleton] at h1
        subst h1
        exact hnoslash s (List.mem_append.mpr (.inr (List.mem_singleton.mpr rfl)))
    by_cases hjn : joinSlash (resolveSegs [] L ++ [sl]) = []
    · rw [if_pos hjn]
      exact ⟨by decide, by decide⟩
    · rw [if_neg hjn]
      refine ⟨joinSlash_clean hRchars, ?_⟩
      rw [joinSlash_lastSlash hRnoslash (by simp), getLastD_concat]
      exact hlast


/-- C9 (amended): the crawl loop normalization
`urljoin(base, raw.split("#")[0]).split("?")[0]` is idempotent provided the
base URL parses with scheme `http` or `https` and a non-empty netloc and the
link is non-empty after fragment stripping: if `normalize(base, x) = y` then
`normalize(base, y) = y`.  The unconditional claim of the specification is
refuted by `c9_counterexample`. -/
theorem normalize_idem {base x y : Str} {pb : UrlParse}
    (hb : urlparseE base [] = .ok pb)
    (hsch : pb.scheme = toL "http" ∨ pb.scheme = toL "https")
    (hnet : pb.netloc ≠ [])
    (hx : takeUntil '#' x ≠ [])
    (hy : normalizeE base x = .ok y) :
    normalizeE base y = .ok y := by
  have hbne : base ≠ [] := by
    intro he
    subst he
    rw [show urlparseE [] [] = .ok ⟨[], [], [], [], [], []⟩ from rfl] at hb
    injection hb with h2
    rw [← h2] at hnet
    exact hnet rfl
  unfold normalizeE at hy
  rcases hj : urljoinE base (takeUntil '#' x) with a | e
  · rw [hj] at hy
    dsimp only at hy
    injection hy with hy2
    subst hy2
    unfold urljoinE at hj
    rw [if_neg hbne, if_neg hx, hb] at hj
    dsimp only at hj
    rcases hpu : urlparseE (takeUntil '#' x) pb.scheme with u | e2
    · rw [hpu] at hj
      dsimp only at hj
      have hxnoH : ∀ c ∈ takeUntil '#' x, c ≠ '#' :=
        fun c hc he => takeUntil_not_mem '#' x (he ▸ hc)
      have hufrag : u.fragment = [] := urlparse_frag_empty hxnoH hpu
      obtain ⟨hunwf, hubr, hupath, huparams, huppok⟩ := urlparse_wf hpu
      by_cases hscheq : u.scheme = pb.scheme
      · have hrel : u.scheme ∈ uses_relative := by
          rw [hscheq]
          rcases hsch with h | h <;> rw [h] <;> decide
        rw [if_neg (not_or.mpr ⟨not_not_intro hscheq, not_not_intro hrel⟩)] at hj
        have hunet2 : u.scheme ∈ uses_netloc := by
          rw [hscheq]
          rcases hsch with h | h <;> rw [h] <;> decide
        have hupmem : u.scheme ∈ uses_params := by
          rw [hscheq]
          rcases hsch with h | h <;> rw [h] <;> decide
        obtain ⟨hok1, hok2⟩ := huppok hupmem
        obtain ⟨hbnwf, hbbr, hbpath, hbparams, hbppok⟩ := urlparse_wf hb
        have hbpmem : pb.scheme ∈ uses_params := by
          rcases hsch with h | h <;> rw [h] <;> decide
        obtain ⟨hbok1, hbok2⟩ := hbppok hbpmem
        by_cases hn0 : u.netloc = []
        · rw [if_neg (fun hc => hc.2 hn0)] at hj
          rw [if_pos hunet2] at hj
          by_cases hpe : u.path = [] ∧ u.params = []
          · rw [if_pos hpe] at hj
            injection hj with hj2
            subst hj2
            rw [hufrag, hscheq]
            exact assembled_stable hb rfl hsch hnet hbnwf hbbr hbpath hbparams hbok1 hbok2
          · rw [if_neg hpe] at hj
            injection hj with hj2
            subst hj2
            rw [hufrag, hscheq]
            generalize hseg : (if u.path.take 1 = toL "/" then splitSlash u.path
                else filterMiddle ((if (splitSlash pb.path).getLastD [] ≠ []
                  then (splitSlash pb.path).dropLast else splitSlash pb.path)
                  ++ splitSlash u.path)) = SG
            have hSGne : SG ≠ [] := by
              rw [← hseg]
              by_cases habs : u.path.take 1 = toL "/"
              · rw [if_pos habs]
                exact splitSlash_ne_nil u.path
              · rw [if_neg habs]
                apply filterMiddle_ne_nil
                intro he
                exact splitSlash_ne_nil u.path (List.append_eq_nil.mp he).2
            have hBP : ∀ s ∈ (if (splitSlash pb.path).getLastD [] ≠ []
                then (splitSlash pb.path).dropLast else splitSlash pb.path),
                s ∈ splitSlash pb.path := by
              by_cases hgl : (splitSlash pb.path).getLastD [] ≠ []
              · rw [if_pos hgl]
                exact fun s hs => List.dropLast_subset _ hs
              · rw [if_neg hgl]
                exact fun s hs => hs
            have hSGmem : ∀ s ∈ SG, s ∈ splitSlash u.path ∨ s ∈ splitSlash pb.path := by
              rw [← hseg]
              by_cases habs : u.path.take 1 = toL "/"
              · rw [if_pos habs]
                exact fun s hs => .inl hs
              · rw [if_neg habs]
                intro s hs
                rcases List.mem_append.mp (filterMiddle_subset s hs) with h1 | h1
                · exact .inr (hBP s h1)
                · exact .inl h1
            have hSGnoslash : ∀ s ∈ SG, hasChar '/' s = false := by
              intro s hs
              rcases hSGmem s hs with h | h
              · exact splitSlash_elem_noslash u.path s h
              · exact splitSlash_elem_noslash pb.path s h
            have hSGchars : ∀ s ∈ SG, ∀ c ∈ s,
                c ≠ '#' ∧ c ≠ '?' ∧ isUnsafeChar c = false := by
              intro s hs c hc
              rcases hSGmem s hs with h | h
              · exact hupath c (splitSlash_chars u.path s h c hc)
              · exact hbpath c (splitSlash_chars pb.path s h c hc)
            have hSGlast : hasChar ';' (SG.getLastD []) = false := by
              rw [← hseg]
              by_cases habs : u.path.take 1 = toL "/"
              · rw [if_pos habs, splitSlash_getLastD]
                exact hok2
              · rw [if_neg habs]
                rw [filterMiddle_getLastD (by
                  intro he
                  exact splitSlash_ne_nil u.path (List.append_eq_nil.mp he).2) []]
                rw [getLastD_append_right _ (splitSlash_ne_nil u.path) []]
                rw [splitSlash_getLastD]
                exact hok2
            obtain ⟨hJclean, hJok2⟩ := joined_facts hSGne hSGnoslash hSGchars hSGlast rfl rfl
            exact assembled_stable hb rfl hsch hnet hbnwf hbbr hJclean huparams hok1 hJok2
        · rw [if_pos ⟨hunet2, hn0⟩] at hj
          injection hj with hj2
          subst hj2
          rw [hufrag, hscheq]
          exact assembled_stable hb rfl hsch hn0 hunwf hubr hupath huparams hok1 hok2
      · rw [if_pos (.inl hscheq)] at hj
        injection hj with hj2
        subst hj2
        have hynoH : ∀ c ∈ takeUntil '?' (takeUntil '#' x), c ≠ '#' :=
          fun c hc => hxnoH c (mem_takeUntil hc)
        have hyne : takeUntil '?' (takeUntil '#' x) ≠ [] := by
          rcases hss : schemeSplit (removeUnsafe ((takeUntil '#' x).dropWhile isC0OrSpace))
              with _ | ⟨sr, r⟩
          · exfalso
            apply hscheq
            rw [urlparse_scheme_of_none hss hpu]
            rcases hsch with h | h <;> rw [h] <;> decide
          · intro hy0
            cases hx2 : takeUntil '#' x with
            | nil => exact hx hx2
            | cons c t =>
              rw [hx2, takeUntil_cons] at hy0
              by_cases hcq : c = '?'
              · subst hcq
                rw [hx2] at hss
                rw [show ('?' :: t).dropWhile isC0OrSpace = '?' :: t from by
                  rw [List.dropWhile_cons]
                  simp [show isC0OrSpace '?' = false from by decide]] at hss
                rw [show removeUnsafe ('?' :: t) = '?' :: removeUnsafe t from rfl] at hss
                obtain ⟨hw, _, _, c0, t0, hsr, hca⟩ := schemeSplit_sound hss
                rw [hsr, List.cons_append] at hw
                injection hw with hw1 hw2
                rw [← hw1] at hca
                exact absurd hca (by decide)
              · rw [if_neg hcq] at hy0
                exact List.noConfusion hy0
        have hpu2 := urlparseE_takeUntilQ hxnoH hpu
        unfold normalizeE
        rw [takeUntil_eq_self hynoH]
        unfold urljoinE
        rw [if_neg hbne, if_neg hyne, hb]
        dsimp only
        rw [hpu2]
        dsimp only
        rw [if_pos (.inl hscheq)]
        dsimp only
        rw [takeUntil_idem]
    · rw [hpu] at hj
      exact PE.noConfusion hj
  · rw [hj] at hy
    dsimp only at hy
    exact PE.noConfusion hy


set_option maxRecDepth 1000000 in
/-- C9, counterexample to the unconditional claim of the specification:
with the fragment-bearing base `http://h/a#f`, the link `#z` (empty after
fragment stripping) normalizes to `http://h/a#f`, which re-normalizes to the
different URL `http://h/a`; with the netloc-less base `http:/a/./b`, the
link `?q` normalizes to `http:///a/./b`, which re-normalizes to the
different URL `http:///a/b`. -/
theorem c9_counterexample :
    normalizeE (toL "http://h/a#f") (toL "#z") = .ok (toL "http://h/a#f") ∧
    normalizeE (toL "http://h/a#f") (toL "http://h/a#f") = .ok (toL "http://h/a") ∧
    normalizeE (toL "http:/a/./b") (toL "?q") = .ok (toL "http:///a/./b") ∧
    normalizeE (toL "http:/a/./b") (toL "http:///a/./b") = .ok (toL "http:///a/b") := by
  decide

set_option maxRecDepth 1000000 in
/-- Witness for `normalize_idem` at a concrete input: base `http://h/a`,
link `/b?q#f`, first normalization `http://h/b`, which is a fixed point. -/
theorem normalize_idem_witness :
    normalizeE (toL "http://h/a") (toL "/b?q#f") = .ok (toL "http://h/b") ∧
    normalizeE (toL "http://h/a") (toL "http://h/b") = .ok (toL "http://h/b") :=
  ⟨by decide,
   @normalize_idem (toL "http://h/a") (toL "/b?q#f") (toL "http://h/b")
     ⟨toL "http", toL "h", toL "/a", [], [], []⟩
     (by decide) (by decide) (by decide) (by decide) (by decide)⟩

end Crawler
